import Mathlib

/-!
Verification of the `bgb` interactive git-blame viewer.

This file contains a shallow embedding of the program's core logic:

* the porcelain blame parser `GitBlame` (src/unnamed/part_000, lines 75-186),
* the remote-address parser `parseRemoteUrl` (src/unnamed/part_000, lines 212-231),
* the cyclic substring search `performSearch` (src/unnamed/part_001, lines 183-203),
* the history-navigation handlers for the `h` (descend) and `l` (return) keys
  (src/unnamed/part_001, lines 332-398, inside `TViewInit`),

together with theorems settling the specification claims about them.

Strings are modelled as `List Char` (the program only manipulates its input
byte-wise; on well-formed UTF-8 the byte-level operations used — prefix tests,
fixed-offset slicing of ASCII ids, substring containment — agree with the
character-level ones modelled here).  Go `int` values that can go negative
(line numbers, cursor positions) are modelled as `Int`; counters that stay
non-negative are `Nat`.
-/

set_option maxHeartbeats 1000000

namespace Bgb

/-! ## Character classes and small string helpers -/

/-- The character class `[0-9a-f]` of the two header regexes. -/
def isHexLowerChar (c : Char) : Bool :=
  (('0' ≤ c) && (c ≤ '9')) || (('a' ≤ c) && (c ≤ 'f'))

/-- The RE2 class `\s`, i.e. `[\t\n\f\r ]`. -/
def isWsChar (c : Char) : Bool :=
  c == ' ' || c == '\t' || c == '\n' || c == '\r' || c == '\x0c'

/-- The RE2 class `\d`, i.e. `[0-9]`. -/
def isDigitChar (c : Char) : Bool := ('0' ≤ c) && (c ≤ '9')

/-- Numeric value of a decimal digit character. -/
def digitVal (c : Char) : Nat := c.toNat - '0'.toNat

/-- Value of a decimal digit string (the behaviour of `strconv.Atoi` on a
string of digits; the header regexes guarantee the argument is all digits,
so the error case of `Atoi` cannot fire there). -/
def digitsVal (l : List Char) : Nat := l.foldl (fun a c => 10 * a + digitVal c) 0

/-- Decimal rendering helper: digits of `n` prepended to `acc`. -/
def toDecimalAux : Nat → List Char → List Char
  | 0, acc => acc
  | n + 1, acc =>
      toDecimalAux ((n + 1) / 10) (Char.ofNat ('0'.toNat + (n + 1) % 10) :: acc)
decreasing_by exact Nat.div_lt_self (Nat.succ_pos n) (by norm_num)

/-- Decimal rendering of a natural number, used when building concrete
well-formed porcelain input streams. -/
def toDecimal (n : Nat) : List Char := if n = 0 then ['0'] else toDecimalAux n []

/-- Go `strings.Replace(l, pat, "", 1)`: remove the first occurrence of
`pat` from `l` (leave `l` unchanged when `pat` does not occur). -/
def removeFirstStr (pat : List Char) : List Char → List Char
  | [] => []
  | c :: rest =>
      if pat.isPrefixOf (c :: rest) then (c :: rest).drop pat.length
      else c :: removeFirstStr pat rest

/-- Both-sided `takeWhile`/`dropWhile` split helper used below. -/
theorem takeWhile_append_all {p : Char → Bool} {d : List Char} {s : Char}
    {r : List Char} (hd : ∀ c ∈ d, p c = true) (hs : p s = false) :
    (d ++ s :: r).takeWhile p = d ∧ (d ++ s :: r).dropWhile p = s :: r := by
  induction d with
  | nil => simp [List.takeWhile, List.dropWhile, hs]
  | cons a d ih =>
      have ha : p a = true := hd a (by simp)
      have ih2 := ih (fun c hc => hd c (by simp [hc]))
      simp [List.takeWhile, List.dropWhile, ha, ih2.1, ih2.2]

/-! ## Header regex matchers

`BlameChunkHeader = \A([0-9a-f]{40})\s(\d+)\s(\d+)\s(\d+)\z` and
`LineInChunkHeader = \A[0-9a-f]{40}\s\d+\s(\d+)\z` (src/unnamed/part_000,
lines 15-16).  The character classes of adjacent pieces are disjoint and the
pattern is anchored on both sides, so the regex matches are deterministic
and equal to the structural maximal-munch parse implemented here. -/

/-- Match `BlameChunkHeader`; on success returns the four capture groups
`(commit id, orig-line, final-line, group-size)`. -/
def matchFullHeader (l : List Char) : Option (List Char × Nat × Nat × Nat) :=
  let id := l.take 40
  if id.length == 40 && id.all isHexLowerChar then
    match l.drop 40 with
    | c1 :: r1 =>
      if isWsChar c1 then
        let d1 := r1.takeWhile isDigitChar
        if d1.isEmpty then none else
        match r1.dropWhile isDigitChar with
        | c2 :: r2 =>
          if isWsChar c2 then
            let d2 := r2.takeWhile isDigitChar
            if d2.isEmpty then none else
            match r2.dropWhile isDigitChar with
            | c3 :: r3 =>
              if isWsChar c3 then
                let d3 := r3.takeWhile isDigitChar
                if d3.isEmpty then none else
                if (r3.dropWhile isDigitChar).isEmpty then
                  some (id, digitsVal d1, digitsVal d2, digitsVal d3)
                else none
              else none
            | [] => none
          else none
        | [] => none
      else none
    | [] => none
  else none

/-- Match `LineInChunkHeader`; on success returns the single capture group
(the final-line number, i.e. the second numeric field). -/
def matchSecondaryHeader (l : List Char) : Option Nat :=
  let id := l.take 40
  if id.length == 40 && id.all isHexLowerChar then
    match l.drop 40 with
    | c1 :: r1 =>
      if isWsChar c1 then
        let d1 := r1.takeWhile isDigitChar
        if d1.isEmpty then none else
        match r1.dropWhile isDigitChar with
        | c2 :: r2 =>
          if isWsChar c2 then
            let d2 := r2.takeWhile isDigitChar
            if d2.isEmpty then none else
            if (r2.dropWhile isDigitChar).isEmpty then some (digitsVal d2)
            else none
          else none
        | [] => none
      else none
    | [] => none
  else none

/-! ## Data model of the blame parser (src/unnamed/part_000) -/

/-- Metadata keys recognised by the parser (src/unnamed/part_000, lines 18-25). -/
def authorKey : List Char := "author".data
def authorMailKey : List Char := "author-mail".data
def authorTimeKey : List Char := "author-time".data
def previousKey : List Char := "previous".data
def summaryKey : List Char := "summary".data
def filenameKey : List Char := "filename".data

/-- The all-zero sentinel commit id (src/unnamed/part_000, line 27). -/
def NotCommittedId : List Char := "0000000000000000000000000000000000000000".data

/-- The `BlameChunk` record (src/unnamed/part_000, lines 35-44). -/
structure BlameChunk where
  CommitId : List Char
  PreviousCommitId : List Char
  Author : List Char
  AuthorMail : List Char
  AuthorTime : Int
  Summary : List Char
  Filename : List Char
  PreviousFilename : List Char
deriving Repr, DecidableEq

/-- The zero value of `BlameChunk` (`&BlameChunk{}` in Go). -/
def emptyChunk : BlameChunk :=
  { CommitId := [], PreviousCommitId := [], Author := [], AuthorMail := []
    AuthorTime := 0, Summary := [], Filename := [], PreviousFilename := [] }

/-- The `Blame` record (src/unnamed/part_000, lines 51-54).  Go stores pointers to
shared mutable chunks in `LineToChunkMap`; here the map is resolved to the
final chunk values when the parser returns, which observes exactly the data
a caller of `GitBlame` can read. -/
structure Blame where
  Lines : List (List Char)
  LineToChunkMap : List (Int × BlameChunk)
deriving Repr, DecidableEq

/-- Map lookup on the resolved line-to-chunk map (latest insertion wins,
matching Go map-assignment semantics: the parser prepends new entries). -/
def lookupBlame (b : Blame) (i : Int) : Option BlameChunk :=
  (b.LineToChunkMap.find? (fun p => p.1 == i)).map (fun p => p.2)

/-- Structured errors of `GitBlame`.  `badHeader` is the
"unexpected format of line %#v in git blame output." error carrying the raw
offending line (line 125); `badAuthorTime` is the `strconv.ParseInt` failure
on an `author-time` value (lines 169-171); `panicSlice` is the runtime panic
of `val[:40]` / `val[41:]` on a too-short `previous` value (lines 162-163). -/
inductive GitBlameError where
  | badHeader (rawLine : List Char)
  | badAuthorTime (val : List Char)
  | panicSlice
deriving Repr, DecidableEq

/-- The local state of the `GitBlame` scanner loop (src/unnamed/part_000,
lines 111-118).  Go chunks are heap objects referenced from both maps; the
heap is modelled as the list `chunks`, and both maps store indices into it. -/
@[ext]
structure ParseState where
  chunks : List BlameChunk
  idToChunk : List (List Char × Nat)
  lineToChunk : List (Int × Nat)
  linesInChunk : Nat
  lineNumber : Int
  chunkPopulated : Bool
  lines : List (List Char)
  cur : Nat
deriving Repr, DecidableEq

/-- Initial scanner state (all zero values). -/
def initState : ParseState :=
  { chunks := [], idToChunk := [], lineToChunk := [], linesInChunk := 0
    lineNumber := 0, chunkPopulated := false, lines := [], cur := 0 }

/-- Association-list lookup mirroring `idToChunkMap[id]` (first, i.e. most
recently inserted, match wins; ids are inserted at most once). -/
def lookupId (m : List (List Char × Nat)) (id : List Char) : Option Nat :=
  (m.find? (fun p => p.1 == id)).map (fun p => p.2)

/-- Mutate the chunk currently pointed to by `cur` (the Go code writes
through the `chunk` pointer). -/
def ParseState.updateCur (st : ParseState) (f : BlameChunk → BlameChunk) : ParseState :=
  { st with chunks := st.chunks.set st.cur (f (st.chunks.getD st.cur emptyChunk)) }

/-- The helper `FindInterestingValue` (src/unnamed/part_000, lines 233-239): if `line`
starts with `name ++ " "`, return the line with that first occurrence
removed. -/
def findInterestingValue (name : List Char) (line : List Char) : Option (List Char) :=
  if (name ++ [' ']).isPrefixOf line then some (removeFirstStr (name ++ [' ']) line)
  else none

/-- Go `strconv.ParseInt(s, 10, 64)` without the 64-bit range check
(no claim concerns overflow): optional sign followed by one or more
digits. -/
def goParseInt (l : List Char) : Option Int :=
  match l with
  | [] => none
  | '+' :: rest =>
      if rest ≠ [] && rest.all isDigitChar then some (digitsVal rest : Int) else none
  | '-' :: rest =>
      if rest ≠ [] && rest.all isDigitChar then some (-(digitsVal rest : Int)) else none
  | _ =>
      if l.all isDigitChar then some (digitsVal l : Int) else none

/-- The metadata branch of the scanner loop (src/unnamed/part_000, lines
156-175), reached when the current line is neither a secondary header nor a
content line and the current chunk is not yet populated. -/
def applyMetaLine (st : ParseState) (line : List Char) : Except GitBlameError ParseState :=
  match findInterestingValue authorKey line with
  | some v => .ok (st.updateCur fun c => { c with Author := v })
  | none =>
  match findInterestingValue authorMailKey line with
  | some v => .ok (st.updateCur fun c => { c with AuthorMail := v })
  | none =>
  match findInterestingValue previousKey line with
  | some v =>
      if v.length < 41 then .error .panicSlice
      else .ok (st.updateCur fun c =>
        { c with PreviousCommitId := v.take 40, PreviousFilename := v.drop 41 })
  | none =>
  match findInterestingValue summaryKey line with
  | some v => .ok (st.updateCur fun c => { c with Summary := v })
  | none =>
  match findInterestingValue filenameKey line with
  | some v => .ok (st.updateCur fun c => { c with Filename := v })
  | none =>
  match findInterestingValue authorTimeKey line with
  | some v =>
      match goParseInt v with
      | none => .error (.badAuthorTime v)
      | some t => .ok (st.updateCur fun c => { c with AuthorTime := t })
  | none => .ok st

/-- One iteration of the scanner loop of `GitBlame`
(src/unnamed/part_000, lines 120-176). -/
def processLine (st : ParseState) (line : List Char) : Except GitBlameError ParseState :=
  if st.linesInChunk = 0 then
    match matchFullHeader line with
    | none => .error (.badHeader line)
    | some (id, _orig, finalLine, size) =>
        let st1 :=
          match lookupId st.idToChunk id with
          | some k => { st with chunkPopulated := true, cur := k }
          | none =>
              { st with chunkPopulated := false, cur := st.chunks.length
                        chunks := st.chunks ++ [{ emptyChunk with CommitId := id }]
                        idToChunk := (id, st.chunks.length) :: st.idToChunk }
        .ok { st1 with lineNumber := (finalLine : Int) - 1, linesInChunk := size }
  else
    match matchSecondaryHeader line with
    | some n => .ok { st with lineNumber := (n : Int) - 1 }
    | none =>
      if line.head? = some '\t' then
        .ok { st with
              linesInChunk := st.linesInChunk - 1
              lineToChunk := (st.lineNumber, st.cur) :: st.lineToChunk
              lines := st.lines ++ [removeFirstStr ['\t'] line] }
      else if st.chunkPopulated then .ok st
      else applyMetaLine st line

/-- Run the scanner loop over the remaining input lines. -/
def runLines (st : ParseState) : List (List Char) → Except GitBlameError ParseState
  | [] => .ok st
  | l :: ls =>
      match processLine st l with
      | .ok st2 => runLines st2 ls
      | .error e => .error e

/-- Build the returned `Blame` value (src/unnamed/part_000, line 184),
resolving chunk indices to the final chunk values. -/
def finalize (st : ParseState) : Blame :=
  { Lines := st.lines
    LineToChunkMap := st.lineToChunk.map (fun p => (p.1, st.chunks.getD p.2 emptyChunk)) }

/-- The function `GitBlame` restricted to its parsing core: the input is the list of
lines of the subprocess output; the result is the `Blame` snapshot or a
structured error (in which case no snapshot is returned). -/
def gitBlameParse (input : List (List Char)) : Except GitBlameError Blame :=
  match runLines initState input with
  | .ok st => .ok (finalize st)
  | .error e => .error e

/-! ## Remote address parsing (src/unnamed/part_000, lines 212-231) -/

structure RemoteInfo where
  Host : List Char
  Repo : List Char
deriving Repr, DecidableEq

/-- Outcome of `parseRemoteUrl`: a `RemoteInfo`, an error returned by
`url.Parse`, or a runtime panic (`hostAndRepoSlice[1]` with a one-element
slice, line 221). -/
inductive RemoteParseOutcome where
  | ok (ri : RemoteInfo)
  | urlErr
  | panicked
deriving Repr, DecidableEq

/-- Go `strings.Trim(l, "/")`: remove leading and trailing `/` characters. -/
def goTrimSlashes (l : List Char) : List Char :=
  ((l.dropWhile (fun c => c == '/')).reverse.dropWhile (fun c => c == '/')).reverse

/-- Go `strings.SplitN(l, ":", 2)`: at most two pieces, split at the first
colon. -/
def splitN2Colon (l : List Char) : List (List Char) :=
  if ':' ∈ l then [l.takeWhile (fun c => c ≠ ':'), (l.dropWhile (fun c => c ≠ ':')).tail]
  else [l]

/-- Split at the first occurrence of `pat`, returning the pieces before and
after it. -/
def splitAtSub (pat : List Char) : List Char → Option (List Char × List Char)
  | [] => none
  | c :: rest =>
      if pat.isPrefixOf (c :: rest) then some ([], (c :: rest).drop pat.length)
      else
        match splitAtSub pat rest with
        | some (b, a) => some (c :: b, a)
        | none => none

/-- Model of the Go standard library call `url.Parse(raw)` restricted to
what `parseRemoteUrl` reads from it (`u.Host` and `u.Path`): for an
absolute URL `scheme://host/path` the host is the authority component and
the path the rest (with its leading slash); a string without `://` parses
with an empty host and itself as the path.  Userinfo, ports, queries and
fragments are not modelled (no claim exercises them), and the error case of
`url.Parse` (which only fires on control characters and malformed escapes)
is modelled as unreachable. -/
def urlParseHostPath (l : List Char) : Option (List Char × List Char) :=
  match splitAtSub "://".data l with
  | some (_scheme, after) =>
      some (after.takeWhile (fun x => x ≠ '/'), after.dropWhile (fun x => x ≠ '/'))
  | none => some ([], l)

/-- The `.git`-suffix strip at the top of `parseRemoteUrl` (lines 213-215). -/
def stripGitSuffix (raw0 : List Char) : List Char :=
  if ".git".data.isSuffixOf raw0 then raw0.take (raw0.length - 4) else raw0

/-- The function `parseRemoteUrl` (src/unnamed/part_000, lines 212-231). -/
def parseRemoteUrl (raw0 : List Char) : RemoteParseOutcome :=
  let raw := stripGitSuffix raw0
  if "git@".data.isPrefixOf raw then
    let rest := removeFirstStr "git@".data raw
    match splitN2Colon rest with
    | [h, r] => .ok { Host := goTrimSlashes h, Repo := goTrimSlashes r }
    | _ => .panicked
  else
    match urlParseHostPath raw with
    | some (h, p) => .ok { Host := goTrimSlashes h, Repo := goTrimSlashes p }
    | none => .urlErr

/-! ## Cyclic substring search (src/unnamed/part_001, lines 183-203) -/

/-- Go `strings.Contains(l, term)`: `term` occurs as a contiguous substring
of `l` (always true for an empty `term`). -/
def containsSub (term : List Char) : List Char → Bool
  | [] => term.isEmpty
  | c :: rest => term.isPrefixOf (c :: rest) || containsSub term rest

/-- The candidate line index inspected at loop iteration `i` of
`performSearch`: one step past (forward) or before (reverse) the anchor,
with wrap-around.  `Int.tmod` is Go's `%` (truncation toward zero); the two
operands are non-negative in the forward branch whenever the anchor is. -/
def candidatePos (n : Nat) (cursorPos : Int) (reverse : Bool) (i : Nat) : Int :=
  if reverse then
    let p := cursorPos - i
    if p < 0 then p + n else p
  else Int.tmod (cursorPos + i) n

/-- Line access `lines[p]` of the Go loop; under the in-range hypotheses of
the theorems below the default value is never read. -/
def lineAt (lines : List (List Char)) (p : Int) : List Char := lines.getD p.toNat []

/-- The `for i := 1; i < linesLen; i++` loop of `performSearch`, from
iteration `i` on. -/
def searchLoop (lines : List (List Char)) (term : List Char) (cursorPos : Int)
    (reverse : Bool) (i : Nat) : Option Int :=
  if i < lines.length then
    let p := candidatePos lines.length cursorPos reverse i
    if containsSub term (lineAt lines p) then some p
    else searchLoop lines term cursorPos reverse (i + 1)
  else none
termination_by lines.length - i
decreasing_by omega

/-- The function `performSearch` (src/unnamed/part_001, lines 183-203): the selected
line index, or `none` when the loop falls through (the `NotFound` case).
`strings.Contains(line, term)` is `term.isInfixOf line`. -/
def performSearch (lines : List (List Char)) (term : List Char) (cursorPos : Int)
    (reverse : Bool) : Option Int :=
  searchLoop lines term cursorPos reverse 1

/-! ## History navigation (src/unnamed/part_001, lines 332-398)

The `h`-key handler (descend to the previous revision of the selected
line's chunk) and the `l`-key handler (return toward the latest revision).
The external `GitBlame` subprocess invocation is modelled as an oracle from
`(commitId, filename)` to `Option Blame` (`none` = the invocation or parse
failed).  `tview`'s `Table.Select` invokes the selection-changed callback,
which assigns the selected row to `CursorPosition`; the handlers below
inline that assignment. -/

/-- The `HistoryItem` record (src/unnamed/part_001, lines 59-63). -/
structure HistoryItem where
  CommitId : List Char
  CursorPosition : Int
  Filename : List Char
deriving Repr, DecidableEq

/-- The navigation-relevant fields of `Application`
(src/unnamed/part_001, lines 37-49).  `History` is ordered oldest-first;
the top of the stack is the last element. -/
structure NavState where
  CurrentCommitId : List Char
  CursorPosition : Int
  CurrentBlame : Blame
  History : List HistoryItem
deriving Repr, DecidableEq

/-- Observable outcome of one navigation key press. -/
inductive NavOutcome where
  | ok
  | rejectedRoot
  | rejectedLatest
  | errored
  | crashed
deriving Repr, DecidableEq

/-- The `h`-key handler (src/unnamed/part_001, lines 332-367).  A missing
map entry for the cursor line would be a nil-pointer dereference in Go,
modelled as `crashed`. -/
def descend (oracle : List Char → List Char → Option Blame) (app : NavState) :
    NavState × NavOutcome :=
  match lookupBlame app.CurrentBlame app.CursorPosition with
  | none => (app, .crashed)
  | some c =>
      if c.PreviousCommitId = [] then (app, .rejectedRoot)
      else
        match oracle c.PreviousCommitId c.PreviousFilename with
        | none => (app, .errored)
        | some blame =>
            let item : HistoryItem :=
              { CommitId := app.CurrentCommitId
                CursorPosition := app.CursorPosition
                Filename := c.Filename }
            let newPos : Int :=
              if (blame.Lines.length : Int) ≤ app.CursorPosition then
                (blame.Lines.length : Int) - 1
              else app.CursorPosition
            ({ CurrentCommitId := c.PreviousCommitId
               CursorPosition := newPos
               CurrentBlame := blame
               History := app.History ++ [item] }, .ok)

/-- The `l`-key handler (src/unnamed/part_001, lines 368-398).  Note the
order of operations in the source: the top history item is read, the
re-parse runs, and only on success is the item removed from the stack. -/
def returnToLatest (oracle : List Char → List Char → Option Blame) (app : NavState) :
    NavState × NavOutcome :=
  match app.History.getLast? with
  | none => (app, .rejectedLatest)
  | some item =>
      match oracle item.CommitId item.Filename with
      | none => (app, .errored)
      | some blame =>
          ({ CurrentCommitId := item.CommitId
             CursorPosition := item.CursorPosition
             CurrentBlame := blame
             History := app.History.dropLast }, .ok)

/-! ## Well-formed porcelain input streams

A well-formed input (in the sense of the specification's grammar, §4.1) is
a sequence of groups: each group opens with a full header
`<40-hex id> <orig> <final> <size>` whose size field equals the number of
lines of the group, followed by the group's metadata lines, then its
content lines, each content line after the first preceded by a secondary
header carrying its final line number.  Across the whole stream the final
line numbers are exactly `1 .. N` (each once), where `N` is the total
number of content lines — which is what `git blame` guarantees for real
output. -/

/-- Abstract description of one group of the porcelain stream. -/
structure GroupSpec where
  id : List Char
  meta : List (List Char)
  body : List (Nat × List Char)
deriving Repr, DecidableEq

/-- Render a full group header `<id> <orig> <final> <size>` (the orig-line
field is irrelevant to the parser; the final line number is reused). -/
def fullHeaderLine (id : List Char) (n size : Nat) : List Char :=
  id ++ (' ' :: (toDecimal n ++ (' ' :: (toDecimal n ++ (' ' :: toDecimal size)))))

/-- Render a secondary header `<id> <orig> <final>`. -/
def secondaryHeaderLine (id : List Char) (n : Nat) : List Char :=
  id ++ (' ' :: (toDecimal n ++ (' ' :: toDecimal n)))

/-- Render a content line: the text preceded by the tab marker. -/
def contentLine (t : List Char) : List Char := '\t' :: t

/-- Render one group.  Metadata lines are emitted after the header of every
group with that id (the parser must ignore them for an already-populated
chunk). -/
def renderGroup (g : GroupSpec) : List (List Char) :=
  match g.body with
  | [] => []
  | (n, t) :: rest =>
      fullHeaderLine g.id n g.body.length ::
        (g.meta ++ contentLine t ::
          rest.flatMap (fun p => [secondaryHeaderLine g.id p.1, contentLine p.2]))

/-- Render a whole stream. -/
def renderGroups (gs : List GroupSpec) : List (List Char) := gs.flatMap renderGroup

/-- A commit id acceptable to the header regexes: exactly 40 characters of
`[0-9a-f]`. -/
def hexIdOk (id : List Char) : Bool := id.length == 40 && id.all isHexLowerChar

/-- A metadata line acceptable inside a group: not a secondary header, not
a content line, and — if it reaches the `previous` or `author-time`
branches of the parser — not one that makes the parser panic or fail. -/
def metaOk (m : List Char) : Bool :=
  (matchSecondaryHeader m).isNone &&
  m.head? != some '\t' &&
  (match findInterestingValue previousKey m with
   | some v => 41 ≤ v.length
   | none => true) &&
  (match findInterestingValue authorTimeKey m with
   | some v => (goParseInt v).isSome
   | none => true)

/-- Well-formedness of one group. -/
def groupOk (g : GroupSpec) : Bool :=
  hexIdOk g.id && !g.body.isEmpty && g.meta.all metaOk

/-- Total number of content lines of a stream. -/
def totalLines (gs : List GroupSpec) : Nat := (gs.map (fun g => g.body.length)).sum

/-- The final line numbers of a stream, in emission order. -/
def bodyLineNumbers (gs : List GroupSpec) : List Nat :=
  gs.flatMap (fun g => g.body.map Prod.fst)

/-- Well-formedness of a stream: every group is well-formed and the final
line numbers are a permutation of `1 .. N`. -/
def wfGroups (gs : List GroupSpec) : Bool :=
  gs.all groupOk && decide ((bodyLineNumbers gs).Perm (List.range' 1 (totalLines gs)))

/-! ### Abstract semantics of a well-formed stream

`absGroupStep` states what processing one group does to the parser state,
at the level of the four components that survive into the result.  The
correspondence with `runLines` is proved below. -/

/-- The pure effect of one metadata line on the current chunk (the
`applyMetaLine` branches, without the error cases, which `metaOk`
excludes). -/
def applyMetaFn (c : BlameChunk) (m : List Char) : BlameChunk :=
  match findInterestingValue authorKey m with
  | some v => { c with Author := v }
  | none =>
  match findInterestingValue authorMailKey m with
  | some v => { c with AuthorMail := v }
  | none =>
  match findInterestingValue previousKey m with
  | some v => { c with PreviousCommitId := v.take 40, PreviousFilename := v.drop 41 }
  | none =>
  match findInterestingValue summaryKey m with
  | some v => { c with Summary := v }
  | none =>
  match findInterestingValue filenameKey m with
  | some v => { c with Filename := v }
  | none =>
  match findInterestingValue authorTimeKey m with
  | some v => { c with AuthorTime := (goParseInt v).getD 0 }
  | none => c

/-- The chunk value a group's metadata builds when the group is the first
with its commit id. -/
def chunkOfGroup (g : GroupSpec) : BlameChunk :=
  g.meta.foldl applyMetaFn { emptyChunk with CommitId := g.id }

/-- The line-map entries contributed by one group, pointing at chunk
index `k`, in emission order. -/
def mappedEntries (body : List (Nat × List Char)) (k : Nat) : List (Int × Nat) :=
  body.map (fun p => ((p.1 : Int) - 1, k))

/-- The content texts of one group, in emission order. -/
def groupTexts (g : GroupSpec) : List (List Char) := g.body.map Prod.snd

/-- Abstract counterpart of the parser state: only the components read
after the loop finishes. -/
structure AbsState where
  store : List BlameChunk
  idIdx : List (List Char × Nat)
  lmap : List (Int × Nat)
  lns : List (List Char)
deriving Repr, DecidableEq

def absInit : AbsState := { store := [], idIdx := [], lmap := [], lns := [] }

/-- Abstract effect of one well-formed group. -/
def absGroupStep (a : AbsState) (g : GroupSpec) : AbsState :=
  match lookupId a.idIdx g.id with
  | some k =>
      { a with lmap := (mappedEntries g.body k).reverse ++ a.lmap
               lns := a.lns ++ groupTexts g }
  | none =>
      { store := a.store ++ [chunkOfGroup g]
        idIdx := (g.id, a.store.length) :: a.idIdx
        lmap := (mappedEntries g.body a.store.length).reverse ++ a.lmap
        lns := a.lns ++ groupTexts g }

/-- The parser state components described by an abstract state (the group
loop always finishes a group with `linesInChunk = 0`). -/
def Corr (a : AbsState) (st : ParseState) : Prop :=
  st.chunks = a.store ∧ st.idToChunk = a.idIdx ∧ st.lineToChunk = a.lmap ∧
    st.lines = a.lns ∧ st.linesInChunk = 0

/-! ## Lemmas: decimal rendering round-trips through `digitsVal` -/

theorem digitChar_toNat {m : Nat} (hm : m < 10) :
    (Char.ofNat (48 + m)).toNat = 48 + m := by
  interval_cases m <;> decide

theorem digitChar_isDigit {m : Nat} (hm : m < 10) :
    isDigitChar (Char.ofNat (48 + m)) = true := by
  interval_cases m <;> decide

theorem digitVal_digitChar {m : Nat} (hm : m < 10) :
    digitVal (Char.ofNat (48 + m)) = m := by
  interval_cases m <;> decide

theorem toDecimalAux_append (n : Nat) :
    ∀ acc, toDecimalAux n acc = toDecimalAux n [] ++ acc := by
  induction n using Nat.strong_induction_on with
  | _ n ih =>
    intro acc
    match n with
    | 0 => simp [toDecimalAux]
    | n + 1 =>
      rw [toDecimalAux, toDecimalAux]
      have hlt : (n + 1) / 10 < n + 1 := Nat.div_lt_self (Nat.succ_pos n) (by norm_num)
      rw [ih _ hlt, ih _ hlt (Char.ofNat ('0'.toNat + (n + 1) % 10) :: [])]
      simp

theorem digitsVal_foldl (l : List Char) :
    ∀ v : Nat, l.foldl (fun a c => 10 * a + digitVal c) v =
      v * 10 ^ l.length + digitsVal l := by
  induction l with
  | nil => intro v; simp [digitsVal]
  | cons c rest ih =>
      intro v
      show rest.foldl _ (10 * v + digitVal c) = _
      rw [ih (10 * v + digitVal c)]
      have : digitsVal (c :: rest) = rest.foldl (fun a c => 10 * a + digitVal c)
          (10 * 0 + digitVal c) := rfl
      rw [this, ih (10 * 0 + digitVal c)]
      ring_nf
      simp [List.length_cons, pow_succ]
      ring

theorem digitsVal_append (l1 l2 : List Char) :
    digitsVal (l1 ++ l2) = digitsVal l1 * 10 ^ l2.length + digitsVal l2 := by
  show (l1 ++ l2).foldl _ 0 = _
  rw [List.foldl_append, digitsVal_foldl l2]
  rfl

theorem toDecimalAux_digits (n : Nat) :
    (toDecimalAux n []).all isDigitChar = true := by
  induction n using Nat.strong_induction_on with
  | _ n ih =>
    match n with
    | 0 => simp [toDecimalAux]
    | n + 1 =>
      rw [toDecimalAux]
      have hlt : (n + 1) / 10 < n + 1 := Nat.div_lt_self (Nat.succ_pos n) (by norm_num)
      rw [toDecimalAux_append]
      simp only [List.all_append]
      rw [ih _ hlt]
      simp [digitChar_isDigit (Nat.mod_lt _ (by norm_num : (0:Nat) < 10))]

theorem digitsVal_toDecimalAux (n : Nat) :
    digitsVal (toDecimalAux n []) = n := by
  induction n using Nat.strong_induction_on with
  | _ n ih =>
    match n with
    | 0 => simp [toDecimalAux, digitsVal]
    | n + 1 =>
      rw [toDecimalAux]
      have hlt : (n + 1) / 10 < n + 1 := Nat.div_lt_self (Nat.succ_pos n) (by norm_num)
      rw [toDecimalAux_append, digitsVal_append, ih _ hlt]
      have hm : (n + 1) % 10 < 10 := Nat.mod_lt _ (by norm_num)
      simp [digitsVal, digitVal_digitChar hm]
      omega

theorem toDecimal_digits (n : Nat) : (toDecimal n).all isDigitChar = true := by
  unfold toDecimal
  split
  · decide
  · exact toDecimalAux_digits n

theorem toDecimal_ne_nil (n : Nat) : toDecimal n ≠ [] := by
  unfold toDecimal
  split
  · simp
  · next h =>
    match hn : n, h with
    | m + 1, _ =>
      rw [toDecimalAux, toDecimalAux_append]
      simp

theorem digitsVal_toDecimal (n : Nat) : digitsVal (toDecimal n) = n := by
  unfold toDecimal
  split
  · next h => subst h; decide
  · exact digitsVal_toDecimalAux n

/-! ## Lemmas: the matchers on rendered lines -/

theorem takeWhile_all {p : Char → Bool} {d : List Char} (hd : ∀ c ∈ d, p c = true) :
    d.takeWhile p = d ∧ d.dropWhile p = [] := by
  induction d with
  | nil => simp
  | cons a d ih =>
      have ha : p a = true := hd a (by simp)
      have ih2 := ih (fun c hc => hd c (by simp [hc]))
      simp [List.takeWhile, List.dropWhile, ha, ih2.1, ih2.2]

theorem all_digits_forall {d : List Char} (h : d.all isDigitChar = true) :
    ∀ c ∈ d, isDigitChar c = true := by
  intro c hc; exact List.all_eq_true.mp h c hc

theorem matchFullHeader_render {id : List Char} (hid : hexIdOk id = true)
    (n size : Nat) :
    matchFullHeader (fullHeaderLine id n size) = some (id, n, n, size) := by
  have hb : id.length = 40 ∧ id.all isHexLowerChar = true := by
    simpa [hexIdOk] using hid
  have hlen : id.length = 40 := hb.1
  have hall : id.all isHexLowerChar = true := hb.2
  have hdig : ∀ m : Nat, ∀ c ∈ toDecimal m, isDigitChar c = true :=
    fun m => all_digits_forall (toDecimal_digits m)
  have hsp : isDigitChar ' ' = false := by decide
  have t1 := @takeWhile_append_all isDigitChar (toDecimal n)
    ' ' (toDecimal n ++ ' ' :: toDecimal size) (hdig n) hsp
  have t2 := @takeWhile_append_all isDigitChar (toDecimal n)
    ' ' (toDecimal size) (hdig n) hsp
  have t3 := takeWhile_all (hdig size)
  have htk : (fullHeaderLine id n size).take 40 = id := by
    rw [fullHeaderLine, ← hlen, List.take_left]
  have hdr : (fullHeaderLine id n size).drop 40 =
      ' ' :: (toDecimal n ++ ' ' :: (toDecimal n ++ ' ' :: toDecimal size)) := by
    rw [fullHeaderLine, ← hlen, List.drop_left]
  rw [matchFullHeader]
  simp only [htk, hdr, hlen, hall, beq_self_eq_true, Bool.and_self, if_pos rfl]
  simp only [t1.1, t1.2, t2.1, t2.2, t3.1, t3.2]
  simp [isWsChar, toDecimal_ne_nil, List.isEmpty_eq_true, digitsVal_toDecimal]

theorem matchSecondaryHeader_render {id : List Char} (hid : hexIdOk id = true)
    (n : Nat) :
    matchSecondaryHeader (secondaryHeaderLine id n) = some n := by
  have hb : id.length = 40 ∧ id.all isHexLowerChar = true := by
    simpa [hexIdOk] using hid
  have hlen : id.length = 40 := hb.1
  have hall : id.all isHexLowerChar = true := hb.2
  have hdig : ∀ m : Nat, ∀ c ∈ toDecimal m, isDigitChar c = true :=
    fun m => all_digits_forall (toDecimal_digits m)
  have hsp : isDigitChar ' ' = false := by decide
  have t1 := @takeWhile_append_all isDigitChar (toDecimal n)
    ' ' (toDecimal n) (hdig n) hsp
  have t3 := takeWhile_all (hdig n)
  have htk : (secondaryHeaderLine id n).take 40 = id := by
    rw [secondaryHeaderLine, ← hlen, List.take_left]
  have hdr : (secondaryHeaderLine id n).drop 40 =
      ' ' :: (toDecimal n ++ ' ' :: toDecimal n) := by
    rw [secondaryHeaderLine, ← hlen, List.drop_left]
  rw [matchSecondaryHeader]
  simp only [htk, hdr, hlen, hall, beq_self_eq_true, Bool.and_self, if_pos rfl]
  simp only [t1.1, t1.2, t3.1, t3.2]
  simp [isWsChar, toDecimal_ne_nil, List.isEmpty_eq_true, digitsVal_toDecimal]

/-- A content line (tab-marked) never matches the secondary header regex. -/
theorem matchSecondaryHeader_tab (t : List Char) :
    matchSecondaryHeader ('\t' :: t) = none := by
  have htk : ('\t' :: t).take 40 = '\t' :: t.take 39 := rfl
  have hall : (('\t' :: t).take 40).all isHexLowerChar = false := by
    rw [htk]; simp [isHexLowerChar]
  rw [matchSecondaryHeader]
  simp only [hall, Bool.and_false]
  rfl

/-- A content line never matches the full header regex either. -/
theorem matchFullHeader_tab (t : List Char) :
    matchFullHeader ('\t' :: t) = none := by
  have htk : ('\t' :: t).take 40 = '\t' :: t.take 39 := rfl
  have hall : (('\t' :: t).take 40).all isHexLowerChar = false := by
    rw [htk]; simp [isHexLowerChar]
  rw [matchFullHeader]
  simp only [hall, Bool.and_false]
  rfl

/-! ## Lemmas: small list facts about `set`/`getD` -/

theorem getD_set_self {l : List BlameChunk} {n : Nat} (a d : BlameChunk)
    (h : n < l.length) : (l.set n a).getD n d = a := by
  rw [List.getD, List.get?_eq_getElem?, List.getElem?_set]
  simp [h]

theorem set_getD_self {l : List BlameChunk} {n : Nat} (h : n < l.length)
    (d : BlameChunk) : l.set n (l.getD n d) = l := by
  rw [List.getD, List.get?_eq_getElem?, List.getElem?_eq_getElem h]
  exact List.ext_getElem (by simp) (fun i hi hi2 => by
    rw [List.getElem_set]
    split
    · next he => subst he; rfl
    · rfl)

theorem getD_append_self (l : List BlameChunk) (a d : BlameChunk) :
    (l ++ [a]).getD l.length d = a := by
  rw [List.getD, List.get?_eq_getElem?, List.getElem?_append_right (Nat.le_refl _)]
  simp

theorem set_append_self (l : List BlameChunk) (a v : BlameChunk) :
    (l ++ [a]).set l.length v = l ++ [v] := by
  rw [List.set_append_right _ _ (Nat.le_refl _)]
  simp

/-! ## Lemmas: single steps of the scanner loop -/

theorem runLines_cons_ok {st st2 : ParseState} {l : List Char}
    (h : processLine st l = .ok st2) (ls : List (List Char)) :
    runLines st (l :: ls) = runLines st2 ls := by
  rw [runLines, h]

theorem runLines_append (st : ParseState) (xs ys : List (List Char)) :
    runLines st (xs ++ ys) =
      match runLines st xs with
      | .ok st2 => runLines st2 ys
      | .error e => .error e := by
  induction xs generalizing st with
  | nil => simp [runLines]
  | cons l ls ih =>
      rw [List.cons_append, runLines, runLines]
      cases processLine st l with
      | ok st2 => exact ih st2
      | error e => rfl

theorem runLines_append_ok {st st2 : ParseState} {xs : List (List Char)}
    (h : runLines st xs = .ok st2) (ys : List (List Char)) :
    runLines st (xs ++ ys) = runLines st2 ys := by
  rw [runLines_append, h]

/-- Processing a rendered full header from between-groups state. -/
theorem processLine_fullHeader {st : ParseState} (h0 : st.linesInChunk = 0)
    {id : List Char} (hid : hexIdOk id = true) (n size : Nat) :
    processLine st (fullHeaderLine id n size) =
      .ok (match lookupId st.idToChunk id with
        | some k =>
            { st with chunkPopulated := true, cur := k
                      lineNumber := (n : Int) - 1, linesInChunk := size }
        | none =>
            { st with chunkPopulated := false, cur := st.chunks.length
                      chunks := st.chunks ++ [{ emptyChunk with CommitId := id }]
                      idToChunk := (id, st.chunks.length) :: st.idToChunk
                      lineNumber := (n : Int) - 1, linesInChunk := size }) := by
  rw [processLine]
  rw [if_pos h0, matchFullHeader_render hid]
  cases h : lookupId st.idToChunk id <;> simp only [h]

/-- Processing a rendered secondary header inside a group. -/
theorem processLine_secondary {st : ParseState} (h0 : st.linesInChunk ≠ 0)
    {id : List Char} (hid : hexIdOk id = true) (n : Nat) :
    processLine st (secondaryHeaderLine id n) =
      .ok { st with lineNumber := (n : Int) - 1 } := by
  rw [processLine, if_neg h0, matchSecondaryHeader_render hid]

/-- Processing a content line inside a group. -/
theorem processLine_content {st : ParseState} (h0 : st.linesInChunk ≠ 0)
    (t : List Char) :
    processLine st (contentLine t) =
      .ok { st with
            linesInChunk := st.linesInChunk - 1
            lineToChunk := (st.lineNumber, st.cur) :: st.lineToChunk
            lines := st.lines ++ [t] } := by
  rw [processLine, if_neg h0, contentLine, matchSecondaryHeader_tab]
  have hhd : ('\t' :: t).head? = some '\t' := rfl
  rw [if_pos hhd]
  have hrm : removeFirstStr ['\t'] ('\t' :: t) = t := by
    rw [removeFirstStr]
    simp [List.isPrefixOf]
  rw [hrm]

/-- Inside a group with an already-populated chunk, a metadata line is
ignored. -/
theorem processLine_meta_pop {st : ParseState} (h0 : st.linesInChunk ≠ 0)
    (hpop : st.chunkPopulated = true) {m : List Char} (hm : metaOk m = true) :
    processLine st m = .ok st := by
  have hms : (matchSecondaryHeader m).isNone = true := by
    have := hm; unfold metaOk at this
    exact (Bool.and_eq_true_iff.mp ((Bool.and_eq_true_iff.mp
      ((Bool.and_eq_true_iff.mp this).1)).1)).1
  have hhd : m.head? ≠ some '\t' := by
    have := hm; unfold metaOk at this
    have h2 := (Bool.and_eq_true_iff.mp ((Bool.and_eq_true_iff.mp
      ((Bool.and_eq_true_iff.mp this).1)).1)).2
    simpa using h2
  rw [processLine, if_neg h0]
  rw [Option.isNone_iff_eq_none] at hms
  rw [hms, if_neg hhd, if_pos hpop]

/-- Destructured form of `metaOk`. -/
theorem metaOk_parts {m : List Char} (h : metaOk m = true) :
    matchSecondaryHeader m = none ∧ m.head? ≠ some '\t' ∧
    (∀ v, findInterestingValue previousKey m = some v → 41 ≤ v.length) ∧
    (∀ v, findInterestingValue authorTimeKey m = some v →
      (goParseInt v).isSome = true) := by
  unfold metaOk at h
  have h1 := (Bool.and_eq_true_iff.mp ((Bool.and_eq_true_iff.mp
    ((Bool.and_eq_true_iff.mp h).1)).1)).1
  have h2 := (Bool.and_eq_true_iff.mp ((Bool.and_eq_true_iff.mp
    ((Bool.and_eq_true_iff.mp h).1)).1)).2
  have h3 := (Bool.and_eq_true_iff.mp ((Bool.and_eq_true_iff.mp h).1)).2
  have h4 := (Bool.and_eq_true_iff.mp h).2
  refine ⟨Option.isNone_iff_eq_none.mp h1, by simpa using h2, ?_, ?_⟩
  · intro v hv
    rw [hv] at h3
    simpa using h3
  · intro v hv
    rw [hv] at h4
    simpa using h4

/-- Inside a group with a not-yet-populated chunk, a metadata line applies
`applyMetaFn` to the current chunk. -/
theorem applyMetaLine_ok {st : ParseState} (hcur : st.cur < st.chunks.length)
    {m : List Char} (hm : metaOk m = true) :
    applyMetaLine st m = .ok (st.updateCur (fun c => applyMetaFn c m)) := by
  obtain ⟨-, -, h3, h4⟩ := metaOk_parts hm
  cases hf1 : findInterestingValue authorKey m with
  | some v => simp only [applyMetaLine, applyMetaFn, hf1]
  | none =>
  cases hf2 : findInterestingValue authorMailKey m with
  | some v => simp only [applyMetaLine, applyMetaFn, hf1, hf2]
  | none =>
  cases hf3 : findInterestingValue previousKey m with
  | some v =>
      have hlen : ¬ v.length < 41 := by
        have := h3 v hf3; omega
      simp only [applyMetaLine, applyMetaFn, hf1, hf2, hf3, if_neg hlen]
  | none =>
  cases hf4 : findInterestingValue summaryKey m with
  | some v => simp only [applyMetaLine, applyMetaFn, hf1, hf2, hf3, hf4]
  | none =>
  cases hf5 : findInterestingValue filenameKey m with
  | some v => simp only [applyMetaLine, applyMetaFn, hf1, hf2, hf3, hf4, hf5]
  | none =>
  cases hf6 : findInterestingValue authorTimeKey m with
  | some v =>
      obtain ⟨t, ht⟩ := Option.isSome_iff_exists.mp (h4 v hf6)
      simp only [applyMetaLine, applyMetaFn, hf1, hf2, hf3, hf4, hf5, hf6, ht,
        Option.getD_some]
  | none =>
      simp only [applyMetaLine, applyMetaFn, hf1, hf2, hf3, hf4, hf5, hf6]
      simp only [ParseState.updateCur, set_getD_self hcur]

/-- Inside a group with a not-yet-populated chunk, `processLine` reaches
the metadata branch. -/
theorem processLine_meta_unpop {st : ParseState} (h0 : st.linesInChunk ≠ 0)
    (hpop : st.chunkPopulated = false) {m : List Char} (hm : metaOk m = true) :
    processLine st m = applyMetaLine st m := by
  obtain ⟨h1, h2, -, -⟩ := metaOk_parts hm
  rw [processLine, if_neg h0, h1, if_neg h2, if_neg (by simp [hpop])]

theorem updateCur_comp (st : ParseState) (hcur : st.cur < st.chunks.length)
    (f g : BlameChunk → BlameChunk) :
    (st.updateCur f).updateCur g = st.updateCur (fun c => g (f c)) := by
  unfold ParseState.updateCur
  simp only [List.set_set]
  congr 1
  rw [getD_set_self _ _ hcur]

theorem runLines_meta_unpop {ms : List (List Char)} (hms : ms.all metaOk = true) :
    ∀ st : ParseState, st.linesInChunk ≠ 0 → st.chunkPopulated = false →
      st.cur < st.chunks.length →
      runLines st ms = .ok (st.updateCur (fun c => ms.foldl applyMetaFn c)) := by
  induction ms with
  | nil =>
      intro st _ _ hcur
      show Except.ok st = _
      simp only [List.foldl_nil]
      simp only [ParseState.updateCur, set_getD_self hcur]
  | cons m ms ih =>
      intro st h0 hpop hcur
      have hb : metaOk m = true ∧ ms.all metaOk = true := by
        have := hms; rw [List.all_cons, Bool.and_eq_true_iff] at this; exact this
      rw [runLines, processLine_meta_unpop h0 hpop hb.1, applyMetaLine_ok hcur hb.1]
      have hrec := ih hb.2 (st.updateCur (fun c => applyMetaFn c m))
        (by simpa [ParseState.updateCur] using h0)
        (by simpa [ParseState.updateCur] using hpop)
        (by simpa [ParseState.updateCur] using hcur)
      show runLines (st.updateCur fun c => applyMetaFn c m) ms = _
      rw [hrec, updateCur_comp st hcur]
      rfl

theorem runLines_meta_pop {ms : List (List Char)} (hms : ms.all metaOk = true) :
    ∀ st : ParseState, st.linesInChunk ≠ 0 → st.chunkPopulated = true →
      runLines st ms = .ok st := by
  induction ms with
  | nil => intro st _ _; rfl
  | cons m ms ih =>
      intro st h0 hpop
      have hb : metaOk m = true ∧ ms.all metaOk = true := by
        have := hms; rw [List.all_cons, Bool.and_eq_true_iff] at this; exact this
      rw [runLines, processLine_meta_pop h0 hpop hb.1]
      exact ih hb.2 st h0 hpop

/-- Destructured form of `groupOk`. -/
theorem groupOk_parts {g : GroupSpec} (h : groupOk g = true) :
    hexIdOk g.id = true ∧ g.body ≠ [] ∧ g.meta.all metaOk = true := by
  unfold groupOk at h
  have h1 := (Bool.and_eq_true_iff.mp (Bool.and_eq_true_iff.mp h).1).1
  have h2 := (Bool.and_eq_true_iff.mp (Bool.and_eq_true_iff.mp h).1).2
  have h3 := (Bool.and_eq_true_iff.mp h).2
  exact ⟨h1, by simpa using h2, h3⟩

/-- Running the content part of a group: the first content line followed by
(secondary header, content line) pairs.  The final `lineNumber` is not
pinned down (nothing reads it before the next header overwrites it). -/
theorem runLines_body {id : List Char} (hid : hexIdOk id = true) :
    ∀ (rest : List (Nat × List Char)) (t0 : List Char) (st : ParseState),
      st.linesInChunk = rest.length + 1 →
      ∃ st2, runLines st (contentLine t0 ::
          rest.flatMap (fun p => [secondaryHeaderLine id p.1, contentLine p.2])) =
        .ok st2 ∧
        st2.chunks = st.chunks ∧ st2.idToChunk = st.idToChunk ∧
        st2.cur = st.cur ∧ st2.chunkPopulated = st.chunkPopulated ∧
        st2.linesInChunk = 0 ∧
        st2.lineToChunk =
          ((st.lineNumber, st.cur) :: mappedEntries rest st.cur).reverse ++
            st.lineToChunk ∧
        st2.lines = st.lines ++ (t0 :: rest.map Prod.snd) := by
  intro rest
  induction rest with
  | nil =>
      intro t0 st hlc
      simp only [List.length_nil, Nat.zero_add] at hlc
      have h1 : st.linesInChunk ≠ 0 := by omega
      refine ⟨{ st with linesInChunk := st.linesInChunk - 1, lineToChunk := (st.lineNumber, st.cur) :: st.lineToChunk, lines := st.lines ++ [t0] }, ?_, rfl, rfl, rfl, rfl, ?_, ?_, ?_⟩
      · rw [List.flatMap_nil, runLines_cons_ok (processLine_content h1 t0)]
        rfl
      · show st.linesInChunk - 1 = 0
        omega
      · show (st.lineNumber, st.cur) :: st.lineToChunk = _
        simp [mappedEntries]
      · show st.lines ++ [t0] = _
        simp
  | cons p rest2 ih =>
      intro t0 st hlc
      simp only [List.length_cons] at hlc
      have h1 : st.linesInChunk ≠ 0 := by omega
      have hA := @processLine_content st h1 t0
      have h2 : ParseState.linesInChunk { st with
          linesInChunk := st.linesInChunk - 1
          lineToChunk := (st.lineNumber, st.cur) :: st.lineToChunk
          lines := st.lines ++ [t0] } ≠ 0 := by
        show st.linesInChunk - 1 ≠ 0
        have : (p :: rest2).length + 1 = rest2.length + 2 := by simp
        omega
      have hB := processLine_secondary h2 hid p.1
      obtain ⟨st2, hrun, hc, hi, hcu, hcp, hl0, hmap, hlns⟩ :=
        ih p.2 { st with
          linesInChunk := st.linesInChunk - 1
          lineToChunk := (st.lineNumber, st.cur) :: st.lineToChunk
          lines := st.lines ++ [t0], lineNumber := (p.1 : Int) - 1 }
          (by show st.linesInChunk - 1 = rest2.length + 1
              have : (p :: rest2).length + 1 = rest2.length + 2 := by simp
              omega)
      have hchain : runLines st (contentLine t0 ::
          (p :: rest2).flatMap
            (fun p => [secondaryHeaderLine id p.1, contentLine p.2])) =
          runLines { st with
            linesInChunk := st.linesInChunk - 1
            lineToChunk := (st.lineNumber, st.cur) :: st.lineToChunk
            lines := st.lines ++ [t0], lineNumber := (p.1 : Int) - 1 }
            (contentLine p.2 ::
              rest2.flatMap (fun p => [secondaryHeaderLine id p.1, contentLine p.2])) := by
        rw [List.flatMap_cons, List.cons_append, List.cons_append,
          runLines_cons_ok hA, runLines_cons_ok hB]
        simp only [List.nil_append]
      refine ⟨st2, by rw [hchain, hrun], by simpa using hc, by simpa using hi,
        by simpa using hcu, by simpa using hcp, hl0, ?_, ?_⟩
      · rw [hmap]
        show _ = (((st.lineNumber, st.cur) :: (((p.1 : Int) - 1, st.cur) ::
          mappedEntries rest2 st.cur)).reverse) ++ st.lineToChunk
        rw [List.reverse_cons (st.lineNumber, st.cur)]
        simp
      · rw [hlns]
        show (st.lines ++ [t0]) ++ (p.2 :: rest2.map Prod.snd) = _
        simp

/-- Processing one whole group whose id has not been seen yet: a chunk
holding the group's metadata is appended to the store, registered in the
id table, and every group line is mapped to it. -/
theorem runLines_group_fresh {g : GroupSpec} (hg : groupOk g = true)
    {st : ParseState} (h0 : st.linesInChunk = 0)
    (hl : lookupId st.idToChunk g.id = none) :
    ∃ st2, runLines st (renderGroup g) = .ok st2 ∧
      st2.chunks = st.chunks ++ [chunkOfGroup g] ∧
      st2.idToChunk = (g.id, st.chunks.length) :: st.idToChunk ∧
      st2.lineToChunk =
        (mappedEntries g.body st.chunks.length).reverse ++ st.lineToChunk ∧
      st2.lines = st.lines ++ groupTexts g ∧
      st2.linesInChunk = 0 := by
  obtain ⟨hid, hbody, hmeta⟩ := groupOk_parts hg
  obtain ⟨gid, gmeta, gbody⟩ := g
  match hb : gbody, hbody with
  | p :: rest, _ =>
  subst hb
  simp only [renderGroup, chunkOfGroup, mappedEntries, groupTexts] at *
  have hA : processLine st (fullHeaderLine gid p.1 (p :: rest).length) =
      .ok { st with chunkPopulated := false, cur := st.chunks.length, chunks := st.chunks ++ [{ emptyChunk with CommitId := gid }], idToChunk := (gid, st.chunks.length) :: st.idToChunk, lineNumber := (p.1 : Int) - 1, linesInChunk := (p :: rest).length } := by
    rw [processLine_fullHeader h0 hid, hl]
  have hM : runLines { st with chunkPopulated := false, cur := st.chunks.length, chunks := st.chunks ++ [{ emptyChunk with CommitId := gid }], idToChunk := (gid, st.chunks.length) :: st.idToChunk, lineNumber := (p.1 : Int) - 1, linesInChunk := (p :: rest).length } gmeta =
      .ok { st with chunkPopulated := false, cur := st.chunks.length, chunks := st.chunks ++ [gmeta.foldl applyMetaFn { emptyChunk with CommitId := gid }], idToChunk := (gid, st.chunks.length) :: st.idToChunk, lineNumber := (p.1 : Int) - 1, linesInChunk := (p :: rest).length } := by
    rw [runLines_meta_unpop hmeta _ (by show (p :: rest).length ≠ 0; simp) rfl
      (by show st.chunks.length < (st.chunks ++ [_]).length; simp)]
    congr 1
    refine ParseState.ext ?_ rfl rfl rfl rfl rfl rfl rfl
    show (st.chunks ++ [{ emptyChunk with CommitId := gid }]).set st.chunks.length
      (gmeta.foldl applyMetaFn ((st.chunks ++
        [{ emptyChunk with CommitId := gid }]).getD st.chunks.length emptyChunk)) = _
    rw [getD_append_self, set_append_self]
  obtain ⟨st2, hrun, hc, hi, hcu, hcp, hl0, hmap, hlns⟩ :=
    runLines_body hid rest p.2
      { st with chunkPopulated := false, cur := st.chunks.length, chunks := st.chunks ++ [gmeta.foldl applyMetaFn { emptyChunk with CommitId := gid }], idToChunk := (gid, st.chunks.length) :: st.idToChunk, lineNumber := (p.1 : Int) - 1, linesInChunk := (p :: rest).length }
      (by show (p :: rest).length = rest.length + 1; simp)
  refine ⟨st2, ?_, by simpa using hc, by simpa using hi, ?_, by simpa using hlns,
    hl0⟩
  · rw [runLines_cons_ok hA, runLines_append_ok hM, hrun]
  · rw [hmap]
    rfl

/-- Processing one whole group whose id was already registered: the chunk
store and id table are untouched (in particular no chunk field is
overwritten), and every group line is mapped to the existing chunk. -/
theorem runLines_group_pop {g : GroupSpec} (hg : groupOk g = true)
    {st : ParseState} (h0 : st.linesInChunk = 0) {k : Nat}
    (hl : lookupId st.idToChunk g.id = some k) :
    ∃ st2, runLines st (renderGroup g) = .ok st2 ∧
      st2.chunks = st.chunks ∧
      st2.idToChunk = st.idToChunk ∧
      st2.lineToChunk = (mappedEntries g.body k).reverse ++ st.lineToChunk ∧
      st2.lines = st.lines ++ groupTexts g ∧
      st2.linesInChunk = 0 := by
  obtain ⟨hid, hbody, hmeta⟩ := groupOk_parts hg
  obtain ⟨gid, gmeta, gbody⟩ := g
  match hb : gbody, hbody with
  | p :: rest, _ =>
  subst hb
  simp only [renderGroup, mappedEntries, groupTexts] at *
  have hA : processLine st (fullHeaderLine gid p.1 (p :: rest).length) =
      .ok { st with chunkPopulated := true, cur := k, lineNumber := (p.1 : Int) - 1, linesInChunk := (p :: rest).length } := by
    rw [processLine_fullHeader h0 hid, hl]
  have hM : runLines { st with chunkPopulated := true, cur := k, lineNumber := (p.1 : Int) - 1, linesInChunk := (p :: rest).length } gmeta =
      .ok { st with chunkPopulated := true, cur := k, lineNumber := (p.1 : Int) - 1, linesInChunk := (p :: rest).length } :=
    runLines_meta_pop hmeta _ (by show (p :: rest).length ≠ 0; simp) rfl
  obtain ⟨st2, hrun, hc, hi, hcu, hcp, hl0, hmap, hlns⟩ :=
    runLines_body hid rest p.2
      { st with chunkPopulated := true, cur := k, lineNumber := (p.1 : Int) - 1, linesInChunk := (p :: rest).length }
      (by show (p :: rest).length = rest.length + 1; simp)
  refine ⟨st2, ?_, by simpa using hc, by simpa using hi, ?_, by simpa using hlns,
    hl0⟩
  · rw [runLines_cons_ok hA, runLines_append_ok hM, hrun]
  · rw [hmap]
    rfl

/-- The scanner loop on a rendered well-formed stream lands exactly on the
abstract semantics `absGroupStep` folded over the groups. -/
theorem runLines_groups :
    ∀ (gs : List GroupSpec), gs.all groupOk = true →
      ∀ (a : AbsState) (st : ParseState), Corr a st →
        ∃ st2, runLines st (renderGroups gs) = .ok st2 ∧
          Corr (gs.foldl absGroupStep a) st2 := by
  intro gs
  induction gs with
  | nil => intro _ a st hc; exact ⟨st, rfl, hc⟩
  | cons g gs ih =>
      intro hok a st hc
      obtain ⟨hcc, hci, hcl, hcn, hc0⟩ := hc
      have hgok : groupOk g = true ∧ gs.all groupOk = true := by
        rw [List.all_cons, Bool.and_eq_true_iff] at hok; exact hok
      have hrg : renderGroups (g :: gs) = renderGroup g ++ renderGroups gs := by
        rw [renderGroups, List.flatMap_cons]; rfl
      have hfold : (g :: gs).foldl absGroupStep a = gs.foldl absGroupStep (absGroupStep a g) := rfl
      cases hl : lookupId st.idToChunk g.id with
      | none =>
          obtain ⟨st2, hrun, h1, h2, h3, h4, h5⟩ :=
            runLines_group_fresh hgok.1 hc0 hl
          have hl2 : lookupId a.idIdx g.id = none := by rw [← hci]; exact hl
          have hcorr2 : Corr (absGroupStep a g) st2 := by
            refine ⟨?_, ?_, ?_, ?_, h5⟩ <;> simp only [absGroupStep, hl2]
            · rw [h1, hcc]
            · rw [h2, hci, hcc]
            · rw [h3, hcl, hcc]
            · rw [h4, hcn]
          obtain ⟨st3, hrun3, hc3⟩ := ih hgok.2 (absGroupStep a g) st2 hcorr2
          refine ⟨st3, ?_, by rw [hfold]; exact hc3⟩
          rw [hrg, runLines_append_ok hrun, hrun3]
      | some k =>
          obtain ⟨st2, hrun, h1, h2, h3, h4, h5⟩ :=
            runLines_group_pop hgok.1 hc0 hl
          have hl2 : lookupId a.idIdx g.id = some k := by rw [← hci]; exact hl
          have hcorr2 : Corr (absGroupStep a g) st2 := by
            refine ⟨?_, ?_, ?_, ?_, h5⟩ <;> simp only [absGroupStep, hl2]
            · rw [h1, hcc]
            · rw [h2, hci]
            · rw [h3, hcl]
            · rw [h4, hcn]
          obtain ⟨st3, hrun3, hc3⟩ := ih hgok.2 (absGroupStep a g) st2 hcorr2
          refine ⟨st3, ?_, by rw [hfold]; exact hc3⟩
          rw [hrg, runLines_append_ok hrun, hrun3]

/-- Parsing a rendered stream of well-formed groups succeeds and
returns the `Blame` described by the abstract semantics. -/
theorem gitBlameParse_groups {gs : List GroupSpec} (hok : gs.all groupOk = true) :
    ∃ st2, gitBlameParse (renderGroups gs) = .ok (finalize st2) ∧
      Corr (gs.foldl absGroupStep absInit) st2 := by
  obtain ⟨st2, hrun, hc⟩ := runLines_groups gs hok absInit initState
    ⟨rfl, rfl, rfl, rfl, rfl⟩
  exact ⟨st2, by rw [gitBlameParse, hrun], hc⟩

/-! ## Lemmas: the abstract semantics of well-formed streams -/

/-- The first group of a stream carrying a given commit id. -/
def firstGroup (gs : List GroupSpec) (x : List Char) : Option GroupSpec :=
  gs.find? (fun g => g.id == x)

theorem lookupId_cons_self (m : List (List Char × Nat)) (y : List Char) (v : Nat) :
    lookupId ((y, v) :: m) y = some v := by
  rw [lookupId, List.find?_cons]
  simp

theorem lookupId_cons_ne (m : List (List Char × Nat)) {x y : List Char} (v : Nat)
    (h : y ≠ x) : lookupId ((y, v) :: m) x = lookupId m x := by
  rw [lookupId, List.find?_cons]
  have : ((y, v).1 == x) = false := by simpa using h
  rw [this]
  rfl

theorem getD_append_left {l1 : List BlameChunk} (l2 : List BlameChunk) {k : Nat}
    (d : BlameChunk) (h : k < l1.length) : (l1 ++ l2).getD k d = l1.getD k d := by
  rw [List.getD, List.getD, List.get?_eq_getElem?, List.get?_eq_getElem?,
    List.getElem?_append]
  simp [h]

/-- The output lines of the abstract run: group texts in order. -/
theorem abs_lns (gs : List GroupSpec) :
    ∀ a : AbsState, (gs.foldl absGroupStep a).lns = a.lns ++ gs.flatMap groupTexts := by
  induction gs with
  | nil => intro a; simp
  | cons g gs ih =>
      intro a
      rw [List.foldl_cons, ih, List.flatMap_cons]
      have : (absGroupStep a g).lns = a.lns ++ groupTexts g := by
        rw [absGroupStep]
        cases lookupId a.idIdx g.id <;> rfl
      rw [this, List.append_assoc]

/-- The keys of the abstract line map: the zero-based final line numbers of
all groups, reversed (the parser prepends). -/
theorem abs_keys (gs : List GroupSpec) :
    ∀ a : AbsState, (gs.foldl absGroupStep a).lmap.map Prod.fst =
      (gs.flatMap (fun g => g.body.map (fun p => (p.1 : Int) - 1))).reverse ++
        a.lmap.map Prod.fst := by
  induction gs with
  | nil => intro a; simp
  | cons g gs ih =>
      intro a
      rw [List.foldl_cons, ih, List.flatMap_cons, List.reverse_append]
      have : (absGroupStep a g).lmap.map Prod.fst =
          (g.body.map (fun p => (p.1 : Int) - 1)).reverse ++ a.lmap.map Prod.fst := by
        rw [absGroupStep]
        cases lookupId a.idIdx g.id <;>
          simp [mappedEntries, Function.comp]
      rw [this]
      rw [List.append_assoc]

/-- The abstract store only grows; lookups established earlier persist and
keep denoting the same chunk value. -/
theorem abs_mono (gs : List GroupSpec) :
    ∀ a : AbsState, a.store.length ≤ (gs.foldl absGroupStep a).store.length ∧
      (∀ x k, lookupId a.idIdx x = some k →
        lookupId (gs.foldl absGroupStep a).idIdx x = some k) ∧
      (∀ k, k < a.store.length →
        (gs.foldl absGroupStep a).store.getD k emptyChunk =
          a.store.getD k emptyChunk) ∧
      (∀ e : Int × Nat, e ∈ a.lmap → e ∈ (gs.foldl absGroupStep a).lmap) := by
  induction gs with
  | nil =>
      intro a
      exact ⟨Nat.le_refl _, fun x k h => h, fun k _ => rfl, fun e he => he⟩
  | cons g gs ih =>
      intro a
      obtain ⟨ihl, ihk, ihs, ihm⟩ := ih (absGroupStep a g)
      rw [List.foldl_cons]
      have hmem : ∀ e : Int × Nat, e ∈ a.lmap → e ∈ (absGroupStep a g).lmap := by
        intro e he
        rw [absGroupStep]
        cases lookupId a.idIdx g.id <;> · simp only [List.mem_append]; exact Or.inr he
      cases hl : lookupId a.idIdx g.id with
      | some k0 =>
          have hstep : (absGroupStep a g).store = a.store ∧
              (absGroupStep a g).idIdx = a.idIdx := by
            rw [absGroupStep, hl]; exact ⟨rfl, rfl⟩
          refine ⟨le_trans (le_of_eq (by rw [hstep.1])) ihl, ?_, ?_, ?_⟩
          · intro x k h
            exact ihk x k (by rw [hstep.2]; exact h)
          · intro k hk
            rw [ihs k (by rw [hstep.1]; exact hk), hstep.1]
          · intro e he
            exact ihm e (hmem e he)
      | none =>
          have hstore : (absGroupStep a g).store = a.store ++ [chunkOfGroup g] := by
            rw [absGroupStep, hl]
          have hidx : (absGroupStep a g).idIdx =
              (g.id, a.store.length) :: a.idIdx := by
            rw [absGroupStep, hl]
          have hlen : a.store.length ≤ (absGroupStep a g).store.length := by
            rw [hstore]
            simp
          refine ⟨le_trans hlen ihl, ?_, ?_, ?_⟩
          · intro x k h
            have hne : g.id ≠ x := by
              intro he
              rw [he, h] at hl
              cases hl
            refine ihk x k ?_
            rw [hidx, lookupId_cons_ne _ _ hne]
            exact h
          · intro k hk
            have hk2 : k < (absGroupStep a g).store.length := by
              rw [hstore]
              simp only [List.length_append, List.length_cons, List.length_nil]
              omega
            rw [ihs k hk2, hstore, getD_append_left _ _ hk]
          · intro e he
            exact ihm e (hmem e he)

/-- The chunk value every line of a group with commit id `x` ends up mapped
to: the chunk the start state already holds for `x`, or else the one built
from the metadata of the first group of the stream carrying `x`. -/
def valueOf (a : AbsState) (gs : List GroupSpec) (x : List Char) : BlameChunk :=
  match lookupId a.idIdx x with
  | some k0 => a.store.getD k0 emptyChunk
  | none =>
      match firstGroup gs x with
      | some gF => chunkOfGroup gF
      | none => emptyChunk

/-- Master property of the abstract run: every body line of every group is
mapped (via some store index) to the chunk value `valueOf` describes. -/
theorem abs_master (gs : List GroupSpec) :
    ∀ a : AbsState,
      (∀ x k, lookupId a.idIdx x = some k → k < a.store.length) →
      (∀ x k, lookupId (gs.foldl absGroupStep a).idIdx x = some k →
        k < (gs.foldl absGroupStep a).store.length) ∧
      (∀ g ∈ gs, ∀ p ∈ g.body, ∃ k,
        ((p.1 : Int) - 1, k) ∈ (gs.foldl absGroupStep a).lmap ∧
        (gs.foldl absGroupStep a).store.getD k emptyChunk = valueOf a gs g.id) := by
  induction gs with
  | nil => intro a ha; exact ⟨ha, by intro g hg; cases hg⟩
  | cons g gs ih =>
      intro a ha
      rw [List.foldl_cons]
      obtain ⟨hmlen, hmlook, hmst, hmmem⟩ := abs_mono gs (absGroupStep a g)
      have ha2 : ∀ x k, lookupId (absGroupStep a g).idIdx x = some k →
          k < (absGroupStep a g).store.length := by
        intro x k h
        cases hl : lookupId a.idIdx g.id with
        | some k0 =>
            have hidx : (absGroupStep a g).idIdx = a.idIdx := by
              rw [absGroupStep, hl]
            have hst : (absGroupStep a g).store = a.store := by
              rw [absGroupStep, hl]
            rw [hidx] at h
            rw [hst]
            exact ha x k h
        | none =>
            have hidx : (absGroupStep a g).idIdx =
                (g.id, a.store.length) :: a.idIdx := by
              rw [absGroupStep, hl]
            have hst : (absGroupStep a g).store = a.store ++ [chunkOfGroup g] := by
              rw [absGroupStep, hl]
            rw [hidx] at h
            rw [hst]
            simp only [List.length_append, List.length_cons, List.length_nil]
            by_cases hx : g.id = x
            · subst hx
              rw [lookupId_cons_self] at h
              simp at h
              omega
            · rw [lookupId_cons_ne _ _ hx] at h
              have := ha x k h
              omega
      obtain ⟨ih0, ih3⟩ := ih (absGroupStep a g) ha2
      refine ⟨ih0, ?_⟩
      intro g2 hg2 p hp
      rcases List.mem_cons.mp hg2 with hgg | hgs
      · -- the group just processed
        subst hgg
        cases hl : lookupId a.idIdx g2.id with
        | some k0 =>
            refine ⟨k0, ?_, ?_⟩
            · refine hmmem _ ?_
              rw [absGroupStep, hl]
              simp only [List.mem_append, List.mem_reverse]
              refine Or.inl ?_
              simp only [mappedEntries]
              exact List.mem_map.mpr ⟨p, hp, rfl⟩
            · have hst : (absGroupStep a g2).store = a.store := by
                rw [absGroupStep, hl]
              rw [hmst k0 (by rw [hst]; exact ha _ _ hl), hst]
              simp only [valueOf, hl]
        | none =>
            refine ⟨a.store.length, ?_, ?_⟩
            · refine hmmem _ ?_
              rw [absGroupStep, hl]
              simp only [List.mem_append, List.mem_reverse]
              refine Or.inl ?_
              simp only [mappedEntries]
              exact List.mem_map.mpr ⟨p, hp, rfl⟩
            · have hst : (absGroupStep a g2).store = a.store ++ [chunkOfGroup g2] := by
                rw [absGroupStep, hl]
              rw [hmst a.store.length (by rw [hst]; simp), hst, getD_append_self]
              have hfg : firstGroup (g2 :: gs) g2.id = some g2 := by
                rw [firstGroup, List.find?_cons]
                simp
              simp only [valueOf, hl, hfg]
      · -- a later group: use the induction hypothesis and translate values
        obtain ⟨k, hk1, hk2⟩ := ih3 g2 hgs p hp
        refine ⟨k, hk1, ?_⟩
        rw [hk2]
        cases hx : lookupId a.idIdx g2.id with
        | some k0 =>
            have hl2 : lookupId (absGroupStep a g).idIdx g2.id = some k0 := by
              cases hl : lookupId a.idIdx g.id with
              | some _ => rw [absGroupStep, hl]; exact hx
              | none =>
                  have hne : g.id ≠ g2.id := by
                    intro he
                    rw [he, hx] at hl
                    cases hl
                  rw [absGroupStep, hl]
                  show lookupId ((g.id, a.store.length) :: a.idIdx) g2.id = some k0
                  rw [lookupId_cons_ne _ _ hne]
                  exact hx
            simp only [valueOf, hl2, hx]
            cases hl : lookupId a.idIdx g.id with
            | some _ =>
                have hst : (absGroupStep a g).store = a.store := by
                  rw [absGroupStep, hl]
                rw [hst]
            | none =>
                have hst : (absGroupStep a g).store = a.store ++ [chunkOfGroup g] := by
                  rw [absGroupStep, hl]
                rw [hst, getD_append_left _ _ (ha _ _ hx)]
        | none =>
            by_cases hsame : g.id = g2.id
            · -- same id as the group just processed: it was fresh
              have hl : lookupId a.idIdx g.id = none := by rw [hsame]; exact hx
              have hidx : (absGroupStep a g).idIdx =
                  (g.id, a.store.length) :: a.idIdx := by
                rw [absGroupStep, hl]
              have hst : (absGroupStep a g).store = a.store ++ [chunkOfGroup g] := by
                rw [absGroupStep, hl]
              have hl2 : lookupId (absGroupStep a g).idIdx g2.id =
                  some a.store.length := by
                rw [hidx, ← hsame, lookupId_cons_self]
              have hfg : firstGroup (g :: gs) g2.id = some g := by
                rw [firstGroup, List.find?_cons]
                have : (g.id == g2.id) = true := by simp [hsame]
                rw [this]
              simp only [valueOf, hl2, hx, hfg]
              rw [hst, getD_append_self]
            · -- different id: nothing about g2 changed
              have hl2 : lookupId (absGroupStep a g).idIdx g2.id = none := by
                cases hl : lookupId a.idIdx g.id with
                | some _ => rw [absGroupStep, hl]; exact hx
                | none =>
                    rw [absGroupStep, hl]
                    show lookupId ((g.id, a.store.length) :: a.idIdx) g2.id = none
                    rw [lookupId_cons_ne _ _ hsame]
                    exact hx
              have hfg : firstGroup (g :: gs) g2.id = firstGroup gs g2.id := by
                rw [firstGroup, firstGroup, List.find?_cons]
                have : (g.id == g2.id) = false := by simpa using hsame
                rw [this]
              simp only [valueOf, hl2, hx, hfg]

/-- In a list with distinct keys, two members with equal keys coincide. -/
theorem keyed_unique {β : Type} {l : List (Int × β)}
    (h : (l.map Prod.fst).Nodup) {e1 e2 : Int × β}
    (h1 : e1 ∈ l) (h2 : e2 ∈ l) (hk : e1.1 = e2.1) : e1 = e2 := by
  induction l with
  | nil => cases h1
  | cons a l ih =>
      rw [List.map_cons, List.nodup_cons] at h
      rcases List.mem_cons.mp h1 with he1 | he1 <;>
        rcases List.mem_cons.mp h2 with he2 | he2
      · rw [he1, he2]
      · exfalso
        apply h.1
        have ha1 : a.1 = e2.1 := by rw [← he1]; exact hk
        rw [ha1]
        exact List.mem_map.mpr ⟨e2, he2, rfl⟩
      · exfalso
        apply h.1
        have ha1 : a.1 = e1.1 := by rw [← he2]; exact hk.symm
        rw [ha1]
        exact List.mem_map.mpr ⟨e1, he1, rfl⟩
      · exact ih h.2 he1 he2

/-- On a map with distinct keys, lookup of a present entry returns it. -/
theorem lookupBlame_eq_of_mem {b : Blame}
    (hnd : (b.LineToChunkMap.map Prod.fst).Nodup)
    {i : Int} {c : BlameChunk} (hm : (i, c) ∈ b.LineToChunkMap) :
    lookupBlame b i = some c := by
  have hex : ∃ e ∈ b.LineToChunkMap, (e.1 == i) = true := ⟨(i, c), hm, by simp⟩
  obtain ⟨e0, he0⟩ : ∃ e0, b.LineToChunkMap.find? (fun p => p.1 == i) = some e0 :=
    Option.isSome_iff_exists.mp (List.find?_isSome.mpr hex)
  have hmem := List.mem_of_find?_eq_some he0
  have hkey : e0.1 = i := by simpa using List.find?_some he0
  have heq : e0 = (i, c) := keyed_unique hnd hmem hm (by rw [hkey])
  rw [lookupBlame, he0, heq]
  rfl

/-- Destructured form of `wfGroups`. -/
theorem wfGroups_parts {gs : List GroupSpec} (h : wfGroups gs = true) :
    gs.all groupOk = true ∧
      (bodyLineNumbers gs).Perm (List.range' 1 (totalLines gs)) := by
  unfold wfGroups at h
  have h1 := (Bool.and_eq_true_iff.mp h).1
  have h2 := (Bool.and_eq_true_iff.mp h).2
  exact ⟨h1, of_decide_eq_true h2⟩

/-- The final-line numbers of a well-formed stream are distinct. -/
theorem wf_nodup {gs : List GroupSpec} (h : wfGroups gs = true) :
    (bodyLineNumbers gs).Nodup :=
  ((wfGroups_parts h).2).symm.nodup (List.nodup_range' _ _)

/-- The keys of the abstract line map of a well-formed stream, related to
the final-line numbers. -/
theorem abs_keys_shape (gs : List GroupSpec) :
    (gs.foldl absGroupStep absInit).lmap.map Prod.fst =
      ((bodyLineNumbers gs).map (fun n : Nat => (n : Int) - 1)).reverse := by
  rw [abs_keys gs absInit]
  show _ ++ [] = _
  rw [List.append_nil]
  congr 1
  rw [bodyLineNumbers, List.map_flatMap]
  congr 1
  funext g
  rw [List.map_map]
  rfl

theorem finalize_keys (st : ParseState) :
    ((finalize st).LineToChunkMap).map Prod.fst = st.lineToChunk.map Prod.fst := by
  show (st.lineToChunk.map _).map Prod.fst = _
  rw [List.map_map]
  rfl

theorem lookupBlame_isSome_of_key {b : Blame} {i : Int}
    (h : i ∈ b.LineToChunkMap.map Prod.fst) : (lookupBlame b i).isSome = true := by
  obtain ⟨e, he, hkey⟩ := List.mem_map.mp h
  have hs : (b.LineToChunkMap.find? (fun p => p.1 == i)).isSome :=
    List.find?_isSome.mpr ⟨e, he, by simp [hkey]⟩
  obtain ⟨e0, he0⟩ := Option.isSome_iff_exists.mp hs
  rw [lookupBlame, he0]
  rfl

/-- The key list of the parsed snapshot of a well-formed stream. -/
theorem parse_wf_keys {gs : List GroupSpec} {st2 : ParseState}
    (hc : Corr (gs.foldl absGroupStep absInit) st2) :
    ((finalize st2).LineToChunkMap).map Prod.fst =
      ((bodyLineNumbers gs).map (fun n : Nat => (n : Int) - 1)).reverse := by
  rw [finalize_keys, hc.2.2.1, abs_keys_shape]

/--
Claim C1: on a well-formed porcelain stream the parser succeeds, the number
of emitted lines equals the sum of the group-size fields of all group
headers (the size field rendered in the header of group `g` is
`g.body.length`, see `renderGroup`), and every zero-based line index below
the line count has exactly one mapped chunk: the key list of the
line-to-chunk map is duplicate-free and lookup succeeds at every index.
-/
theorem gitBlameParse_sizes_and_coverage (gs : List GroupSpec)
    (hwf : wfGroups gs = true) :
    ∃ b, gitBlameParse (renderGroups gs) = .ok b ∧
      b.Lines.length = (gs.map (fun g => g.body.length)).sum ∧
      (b.LineToChunkMap.map Prod.fst).Nodup ∧
      ∀ i : Nat, i < b.Lines.length → (lookupBlame b (i : Int)).isSome = true := by
  obtain ⟨hok, hperm⟩ := wfGroups_parts hwf
  obtain ⟨st2, hparse, hc⟩ := gitBlameParse_groups hok
  obtain ⟨hcc, hci, hcl, hcn, hc0⟩ := hc
  have hlen : (finalize st2).Lines.length = totalLines gs := by
    show st2.lines.length = _
    rw [hcn, abs_lns]
    show ([] ++ gs.flatMap groupTexts).length = _
    rw [List.nil_append, List.length_flatMap, totalLines]
    congr 1
    refine List.map_congr_left ?_
    intro g _
    simp [groupTexts]
  refine ⟨finalize st2, hparse, ?_, ?_, ?_⟩
  · rw [hlen]
    rfl
  · rw [parse_wf_keys ⟨hcc, hci, hcl, hcn, hc0⟩, List.nodup_reverse]
    refine List.Nodup.map ?_ (wf_nodup hwf)
    intro a b hab
    have hab2 : (a : Int) - 1 = (b : Int) - 1 := hab
    omega
  · intro i hi
    rw [hlen] at hi
    have hmem : i + 1 ∈ bodyLineNumbers gs := by
      refine hperm.mem_iff.mpr ?_
      rw [List.mem_range'_1]
      omega
    refine lookupBlame_isSome_of_key ?_
    rw [parse_wf_keys ⟨hcc, hci, hcl, hcn, hc0⟩, List.mem_reverse]
    refine List.mem_map.mpr ⟨i + 1, hmem, ?_⟩
    push_cast
    ring

/--
Claim C2: in a well-formed stream, all lines of all groups headed by the
same commit id are mapped to one shared chunk, whose metadata comes from
the first group with that id only — later groups reuse the registered
chunk and never overwrite its fields.
-/
theorem gitBlameParse_shared_chunk (gs : List GroupSpec)
    (hwf : wfGroups gs = true) :
    ∃ b, gitBlameParse (renderGroups gs) = .ok b ∧
      ∀ g ∈ gs, ∀ gF, firstGroup gs g.id = some gF →
        ∀ p ∈ g.body,
          lookupBlame b ((p.1 : Int) - 1) = some (chunkOfGroup gF) := by
  obtain ⟨hok, hperm⟩ := wfGroups_parts hwf
  obtain ⟨st2, hparse, hc⟩ := gitBlameParse_groups hok
  obtain ⟨hcc, hci, hcl, hcn, hc0⟩ := hc
  refine ⟨finalize st2, hparse, ?_⟩
  intro g hg gF hgF p hp
  have ha : ∀ x k, lookupId absInit.idIdx x = some k →
      k < absInit.store.length := by
    intro x k h
    rw [show lookupId absInit.idIdx x = none from rfl] at h
    cases h
  obtain ⟨h0, h3⟩ := abs_master gs absInit ha
  obtain ⟨k, hk1, hk2⟩ := h3 g hg p hp
  have hnone : lookupId absInit.idIdx g.id = none := rfl
  have hval : valueOf absInit gs g.id = chunkOfGroup gF := by
    simp only [valueOf, hnone, hgF]
  rw [hval] at hk2
  have hmem : ((p.1 : Int) - 1, chunkOfGroup gF) ∈ (finalize st2).LineToChunkMap := by
    show _ ∈ st2.lineToChunk.map _
    refine List.mem_map.mpr ⟨((p.1 : Int) - 1, k), ?_, ?_⟩
    · rw [hcl]
      exact hk1
    · show ((p.1 : Int) - 1, st2.chunks.getD k emptyChunk) = _
      rw [hcc, hk2]
  have hnd : ((finalize st2).LineToChunkMap.map Prod.fst).Nodup := by
    rw [parse_wf_keys ⟨hcc, hci, hcl, hcn, hc0⟩, List.nodup_reverse]
    refine List.Nodup.map ?_ (wf_nodup hwf)
    intro a b hab
    have hab2 : (a : Int) - 1 = (b : Int) - 1 := hab
    omega
  exact lookupBlame_eq_of_mem hnd hmem

/-! ## Concrete well-formed stream used by the witnesses -/

def idA : List Char := List.replicate 40 'a'
def idB : List Char := List.replicate 40 'b'

/-- Two commits; commit `idA` heads two separate groups, and the second
group carries (ignored) conflicting metadata. -/
def gsW : List GroupSpec :=
  [ { id := idA
      meta := ["author Alice".data, "previous ".data ++ idB ++ " old.txt".data]
      body := [(1, "first".data), (3, "third".data)] }
  , { id := idB
      meta := ["summary fix bug".data, "author-time 1700000000".data]
      body := [(2, "second".data)] }
  , { id := idA
      meta := ["author Mallory".data]
      body := [(4, "fourth".data)] } ]

/-- Witness for the C1 theorem at the concrete stream `gsW`. -/
theorem gitBlameParse_sizes_and_coverage_witness :
    wfGroups gsW = true ∧
    ∃ b, gitBlameParse (renderGroups gsW) = .ok b ∧
      b.Lines.length = (gsW.map (fun g => g.body.length)).sum ∧
      (b.LineToChunkMap.map Prod.fst).Nodup ∧
      ∀ i : Nat, i < b.Lines.length → (lookupBlame b (i : Int)).isSome = true :=
  ⟨by decide, gitBlameParse_sizes_and_coverage gsW (by decide)⟩

/-- Witness for the C2 theorem at the concrete stream `gsW`. -/
theorem gitBlameParse_shared_chunk_witness :
    wfGroups gsW = true ∧
    ∃ b, gitBlameParse (renderGroups gsW) = .ok b ∧
      ∀ g ∈ gsW, ∀ gF, firstGroup gsW g.id = some gF →
        ∀ p ∈ g.body,
          lookupBlame b ((p.1 : Int) - 1) = some (chunkOfGroup gF) :=
  ⟨by decide, gitBlameParse_shared_chunk gsW (by decide)⟩

/-! ## The `previous` metadata line (claim C7) -/

/-- The secondary-header regex rejects any line whose first character is
outside `[0-9a-f]`. -/
theorem matchSecondaryHeader_not_hex {c : Char} (hc : isHexLowerChar c = false)
    (rest : List Char) : matchSecondaryHeader (c :: rest) = none := by
  have htk : (c :: rest).take 40 = c :: rest.take 39 := rfl
  have hall : ((c :: rest).take 40).all isHexLowerChar = false := by
    rw [htk]
    simp [hc]
  rw [matchSecondaryHeader]
  simp only [hall, Bool.and_false]
  rfl

/--
Claim C7: while a group is being populated for the first time, a metadata
line with key `previous` whose value has at least 41 characters sets the
current chunk's `PreviousCommitId` to the first 40 characters of the value
and `PreviousFilename` to the characters after position 41.
-/
theorem previous_metadata_split {st : ParseState} (h0 : st.linesInChunk ≠ 0)
    (hpop : st.chunkPopulated = false) (v : List Char) (hv : 41 ≤ v.length) :
    processLine st (previousKey ++ ' ' :: v) =
      .ok (st.updateCur fun c =>
        { c with PreviousCommitId := v.take 40, PreviousFilename := v.drop 41 }) := by
  have hsec : matchSecondaryHeader (previousKey ++ ' ' :: v) = none :=
    matchSecondaryHeader_not_hex (by decide) _
  rw [processLine, if_neg h0, hsec]
  have hhd : ¬((previousKey ++ ' ' :: v).head? = some '\t') := by
    intro hh
    have hp : (previousKey ++ ' ' :: v).head? = some 'p' := by
      simp [previousKey]
    rw [hp] at hh
    exact absurd (Option.some.inj hh) (by decide)
  rw [if_neg hhd]
  rw [if_neg (by rw [hpop]; simp)]
  have h1 : findInterestingValue authorKey (previousKey ++ ' ' :: v) = none := rfl
  have h2 : findInterestingValue authorMailKey (previousKey ++ ' ' :: v) = none := rfl
  have h3 : findInterestingValue previousKey (previousKey ++ ' ' :: v) = some v := by
    simp [findInterestingValue, previousKey, removeFirstStr, List.isPrefixOf]
  simp only [applyMetaLine, h1, h2, h3]
  rw [if_neg (by omega)]

/-- Concrete mid-group parser state for the C7 witness: one freshly
allocated, not-yet-populated chunk. -/
def stW7 : ParseState :=
  { chunks := [{ emptyChunk with CommitId := idA }], idToChunk := [(idA, 0)]
    lineToChunk := [], linesInChunk := 2, lineNumber := 0
    chunkPopulated := false, lines := [], cur := 0 }

/-- The `previous` value used by the C7 witness: 40-character ancestor id,
separator, pre-rename filename (48 characters in total). -/
def vW7 : List Char := idB ++ " old.txt".data

/-- Witness for the C7 theorem at a concrete state and value. -/
theorem previous_metadata_split_witness :
    (stW7.linesInChunk ≠ 0 ∧ stW7.chunkPopulated = false ∧ 41 ≤ vW7.length) ∧
    processLine stW7 (previousKey ++ ' ' :: vW7) =
      .ok (stW7.updateCur fun c =>
        { c with PreviousCommitId := vW7.take 40
                 PreviousFilename := vW7.drop 41 }) :=
  ⟨⟨by decide, by decide, by decide⟩,
    previous_metadata_split (by decide) (by decide) vW7 (by decide)⟩

/-! ## Header-shape failure (claim C8) -/

/-- A line read between groups that does not match the full header regex
makes the scanner record the error carrying the raw line and stop. -/
theorem processLine_badHeader {st : ParseState} (h0 : st.linesInChunk = 0)
    {l : List Char} (hbad : matchFullHeader l = none) :
    processLine st l = .error (.badHeader l) := by
  rw [processLine, if_pos h0, hbad]

/--
Claim C8: on any input stream, if the line reached while not inside a group
fails to match the header shape, `GitBlame` fails with the ParseError
carrying that raw line (`badHeader l`), and no `Blame` snapshot — not even
a partial one — is returned (the result is `Except.error`, which carries no
snapshot, regardless of the remaining input `post`).
-/
theorem gitBlameParse_badHeader_aborts (pre : List (List Char)) (l : List Char)
    (post : List (List Char)) {st : ParseState}
    (hpre : runLines initState pre = .ok st) (h0 : st.linesInChunk = 0)
    (hbad : matchFullHeader l = none) :
    gitBlameParse (pre ++ l :: post) = .error (.badHeader l) := by
  have hrun : runLines st (l :: post) = .error (.badHeader l) := by
    rw [runLines, processLine_badHeader h0 hbad]
  rw [gitBlameParse, runLines_append_ok hpre, hrun]

/-- Witness for the C8 theorem: a one-group prefix followed by a malformed
header line. -/
theorem gitBlameParse_badHeader_aborts_witness :
    (runLines initState [] = .ok initState ∧ initState.linesInChunk = 0 ∧
      matchFullHeader "hello".data = none) ∧
    gitBlameParse ([] ++ "hello".data :: ["world".data]) =
      .error (.badHeader "hello".data) :=
  ⟨⟨rfl, rfl, by decide⟩,
    gitBlameParse_badHeader_aborts [] "hello".data ["world".data] rfl rfl (by decide)⟩

/-! ## Navigation claims (C3, C4, C5) -/

/-- An oracle whose every invocation fails (subprocess/parse failure). -/
def oracleFail : List Char → List Char → Option Blame := fun _ _ => none

/-- A one-line snapshot owned by commit `idA`. -/
def blameW : Blame :=
  { Lines := ["x".data]
    LineToChunkMap := [(0, { emptyChunk with CommitId := idA })] }

/-- A navigator state with one history item, used against claim C3. -/
def app3 : NavState :=
  { CurrentCommitId := idB, CursorPosition := 0, CurrentBlame := blameW
    History := [{ CommitId := [], CursorPosition := 0, Filename := "f.txt".data }] }

/--
Counterexample to claim C3 as stated: when the re-parse of the `l`-key
handler fails, the top history item is NOT discarded — the stack is left
intact (the pop in the source happens only after a successful `GitBlame`),
so the resulting history differs from the claimed popped stack.
-/
theorem returnToLatest_failure_cex :
    (returnToLatest oracleFail app3).2 = .errored ∧
    (returnToLatest oracleFail app3).1.History ≠ app3.History.dropLast ∧
    (returnToLatest oracleFail app3).1.History = app3.History :=
  ⟨rfl, by decide, by decide⟩

/--
Claim C3 (amended): if the `l`-key handler's re-parse of
`{item.CommitId, item.Filename}` fails, the failed state is not applied and
the top history item is not popped either: the entire navigator state —
`CurrentCommitId`, `CursorPosition`, `CurrentBlame` and the history stack —
keeps its last successful value, and the error is surfaced.
-/
theorem returnToLatest_failure_preserves_state
    (oracle : List Char → List Char → Option Blame) (app : NavState)
    (item : HistoryItem) (htop : app.History.getLast? = some item)
    (hfail : oracle item.CommitId item.Filename = none) :
    returnToLatest oracle app = (app, .errored) := by
  simp only [returnToLatest, htop, hfail]

/-- Witness for the amended C3 theorem at a concrete state and oracle. -/
theorem returnToLatest_failure_preserves_state_witness :
    (app3.History.getLast? =
        some { CommitId := [], CursorPosition := 0, Filename := "f.txt".data } ∧
      oracleFail ([] : List Char) ("f.txt".data) = none) ∧
    returnToLatest oracleFail app3 = (app3, .errored) :=
  ⟨⟨by decide, rfl⟩,
    returnToLatest_failure_preserves_state oracleFail app3
      { CommitId := [], CursorPosition := 0, Filename := "f.txt".data }
      (by decide) rfl⟩

/--
Claim C4: a successful Descend (`h` key) followed immediately by a
successful Return (`l` key) restores `CurrentCommitId` and
`CursorPosition` to their pre-Descend values, at any depth of the history
stack (the history of `app` is arbitrary).
-/
theorem descend_return_roundtrip (oracle : List Char → List Char → Option Blame)
    (app : NavState) (c : BlameChunk) (b1 b2 : Blame)
    (hc : lookupBlame app.CurrentBlame app.CursorPosition = some c)
    (hprev : c.PreviousCommitId ≠ [])
    (h1 : oracle c.PreviousCommitId c.PreviousFilename = some b1)
    (h2 : oracle app.CurrentCommitId c.Filename = some b2) :
    (descend oracle app).2 = .ok ∧
    (returnToLatest oracle (descend oracle app).1).2 = .ok ∧
    (returnToLatest oracle (descend oracle app).1).1.CurrentCommitId =
      app.CurrentCommitId ∧
    (returnToLatest oracle (descend oracle app).1).1.CursorPosition =
      app.CursorPosition := by
  have hd : descend oracle app =
      ({ CurrentCommitId := c.PreviousCommitId
         CursorPosition :=
           if (b1.Lines.length : Int) ≤ app.CursorPosition then
             (b1.Lines.length : Int) - 1
           else app.CursorPosition
         CurrentBlame := b1
         History := app.History ++
           [{ CommitId := app.CurrentCommitId
              CursorPosition := app.CursorPosition
              Filename := c.Filename }] }, .ok) := by
    rw [descend, hc]
    simp only [h1]
    rw [if_neg hprev]
  rw [hd]
  refine ⟨rfl, ?_, ?_, ?_⟩ <;>
    simp [returnToLatest, List.getLast?_concat, h2]

/-- Snapshot and state used by the C4 and C5 witnesses. -/
def chunkW4 : BlameChunk :=
  { emptyChunk with CommitId := idA, PreviousCommitId := idB
                    PreviousFilename := "old.txt".data
                    Filename := "new.txt".data }

def blameW4 : Blame := { Lines := ["x".data], LineToChunkMap := [(0, chunkW4)] }

def app4 : NavState :=
  { CurrentCommitId := [], CursorPosition := 0, CurrentBlame := blameW4
    History := [] }

def oracleW4 : List Char → List Char → Option Blame := fun _ _ => some blameW

/-- Witness for the C4 theorem at a concrete state and oracle. -/
theorem descend_return_roundtrip_witness :
    (lookupBlame app4.CurrentBlame app4.CursorPosition = some chunkW4 ∧
      chunkW4.PreviousCommitId ≠ [] ∧
      oracleW4 chunkW4.PreviousCommitId chunkW4.PreviousFilename = some blameW ∧
      oracleW4 app4.CurrentCommitId chunkW4.Filename = some blameW) ∧
    (descend oracleW4 app4).2 = .ok ∧
    (returnToLatest oracleW4 (descend oracleW4 app4).1).2 = .ok ∧
    (returnToLatest oracleW4 (descend oracleW4 app4).1).1.CurrentCommitId =
      app4.CurrentCommitId ∧
    (returnToLatest oracleW4 (descend oracleW4 app4).1).1.CursorPosition =
      app4.CursorPosition :=
  ⟨⟨by decide, by decide, rfl, rfl⟩,
    descend_return_roundtrip oracleW4 app4 chunkW4 blameW blameW
      (by decide) (by decide) rfl rfl⟩

/--
Claim C5: invoking Descend (`h` key) on a line whose chunk has an empty
`PreviousCommitId` is rejected (the "root commit" message) and the entire
navigator state — `CurrentCommitId`, `CursorPosition`, `HistoryStack`,
`CurrentBlame` — is returned unchanged.
-/
theorem descend_root_rejected (oracle : List Char → List Char → Option Blame)
    (app : NavState) (c : BlameChunk)
    (hc : lookupBlame app.CurrentBlame app.CursorPosition = some c)
    (hroot : c.PreviousCommitId = []) :
    descend oracle app = (app, .rejectedRoot) := by
  rw [descend, hc]
  simp only [hroot]
  simp

/-- State for the C5 witness: the selected line's chunk is a root commit. -/
def app5 : NavState :=
  { CurrentCommitId := [], CursorPosition := 0, CurrentBlame := blameW
    History := [{ CommitId := idB, CursorPosition := 0, Filename := "f.txt".data }] }

/-- Witness for the C5 theorem at a concrete state. -/
theorem descend_root_rejected_witness :
    (lookupBlame app5.CurrentBlame app5.CursorPosition =
        some { emptyChunk with CommitId := idA } ∧
      BlameChunk.PreviousCommitId { emptyChunk with CommitId := idA } = []) ∧
    descend oracleFail app5 = (app5, .rejectedRoot) :=
  ⟨⟨by decide, by decide⟩,
    descend_root_rejected oracleFail app5 { emptyChunk with CommitId := idA }
      (by decide) (by decide)⟩

/-! ## Cyclic search (claim C6) -/

/-- The candidate line indices the search loop inspects, in inspection
order: iteration `i` runs over `1 .. lineCount - 1`. -/
def searchCandidates (n : Nat) (cursorPos : Int) (reverse : Bool) : List Int :=
  (List.range' 1 (n - 1)).map (candidatePos n cursorPos reverse)

theorem searchLoop_eq_find (lines : List (List Char)) (term : List Char)
    (cursorPos : Int) (reverse : Bool) :
    ∀ d i, lines.length - i = d →
      searchLoop lines term cursorPos reverse i =
        ((List.range' i (lines.length - i)).map
          (candidatePos lines.length cursorPos reverse)).find?
          (fun p => containsSub term (lineAt lines p)) := by
  intro d
  induction d with
  | zero =>
      intro i hd
      rw [searchLoop, if_neg (by omega), hd, List.range'_zero, List.map_nil,
        List.find?_nil]
  | succ d ih =>
      intro i hd
      rw [searchLoop, if_pos (by omega), hd, List.range'_succ, List.map_cons]
      by_cases hct : containsSub term
          (lineAt lines (candidatePos lines.length cursorPos reverse i)) = true
      · rw [List.find?_cons_of_pos _ (by simpa using hct)]
        simp only [hct, if_true]
      · rw [List.find?_cons_of_neg _ (by simpa using hct)]
        have hct2 : containsSub term
            (lineAt lines (candidatePos lines.length cursorPos reverse i)) = false := by
          simpa using hct
        simp only [hct2, Bool.false_eq_true, if_false]
        have ih2 := ih (i + 1) (by omega)
        rw [show lines.length - (i + 1) = d from by omega] at ih2
        exact ih2

/--
Claim C6: `performSearch` inspects exactly the `lineCount - 1` candidate
positions obtained by stepping forward (or backward) from the anchor with
wrap-around, never the anchor itself, and returns the first inspected index
whose line contains the term as a (case-sensitive) substring — `none`
(the NotFound case) when no inspected line matches; and in the forward
direction the candidates cover every index other than the anchor, so a
term occurring only before the anchor is still found, after wrapping past
the end.
-/
theorem performSearch_spec (lines : List (List Char)) (term : List Char)
    (cursorPos : Int) (reverse : Bool)
    (hlo : 0 ≤ cursorPos) (hhi : cursorPos < (lines.length : Int)) :
    performSearch lines term cursorPos reverse =
      (searchCandidates lines.length cursorPos reverse).find?
        (fun p => containsSub term (lineAt lines p)) ∧
    (searchCandidates lines.length cursorPos reverse).length =
      lines.length - 1 ∧
    cursorPos ∉ searchCandidates lines.length cursorPos reverse ∧
    (reverse = false → ∀ q : Nat, q < lines.length → (q : Int) ≠ cursorPos →
      (q : Int) ∈ searchCandidates lines.length cursorPos reverse) := by
  have hn : 0 < lines.length := by omega
  refine ⟨?_, ?_, ?_, ?_⟩
  · rw [performSearch, searchLoop_eq_find lines term cursorPos reverse
      (lines.length - 1) 1 rfl, searchCandidates]
  · rw [searchCandidates, List.length_map, List.length_range']
  · intro hmem
    rw [searchCandidates] at hmem
    obtain ⟨i, hi, hci⟩ := List.mem_map.mp hmem
    rw [List.mem_range'_1] at hi
    rw [candidatePos] at hci
    rcases hrev : reverse with _ | _
    · rw [hrev] at hci
      simp only [Bool.false_eq_true, if_false] at hci
      have hnn : 0 ≤ cursorPos + (i : Int) := by omega
      have htm : Int.tmod (cursorPos + (i : Int)) (lines.length : Int) =
          (cursorPos + (i : Int)) % (lines.length : Int) :=
        Int.tmod_eq_emod hnn (by omega)
      rw [htm] at hci
      by_cases hcase : cursorPos + (i : Int) < (lines.length : Int)
      · rw [Int.emod_eq_of_lt hnn hcase] at hci
        omega
      · have h2 : cursorPos + (i : Int) - (lines.length : Int) <
            (lines.length : Int) := by omega
        have h1 : 0 ≤ cursorPos + (i : Int) - (lines.length : Int) := by omega
        have hsame : (cursorPos + (i : Int) - (lines.length : Int)) %
            (lines.length : Int) =
            (cursorPos + (i : Int)) % (lines.length : Int) := by
          conv_rhs => rw [show cursorPos + (i : Int) =
            cursorPos + (i : Int) - (lines.length : Int) + (lines.length : Int)
            from by ring]
          rw [Int.add_emod_self]
        have hstep : (cursorPos + (i : Int)) % (lines.length : Int) =
            cursorPos + (i : Int) - (lines.length : Int) :=
          hsame.symm.trans (Int.emod_eq_of_lt h1 h2)
        rw [hstep] at hci
        omega
    · rw [hrev] at hci
      simp only [if_true] at hci
      split at hci <;> omega
  · intro hrev q hq hne
    rw [searchCandidates]
    have hcp : cursorPos.toNat < lines.length := by omega
    by_cases hgt : cursorPos < (q : Int)
    · refine List.mem_map.mpr ⟨q - cursorPos.toNat, ?_, ?_⟩
      · rw [List.mem_range'_1]
        omega
      · rw [candidatePos, hrev]
        simp only [Bool.false_eq_true, if_false]
        have harg : cursorPos + ((q - cursorPos.toNat : Nat) : Int) = (q : Int) := by
          omega
        rw [harg, show Int.tmod (q : Int) (lines.length : Int) =
            (q : Int) % (lines.length : Int) from
            Int.tmod_eq_emod (by omega) (by omega),
          Int.emod_eq_of_lt (by omega) (by omega)]
    · refine List.mem_map.mpr ⟨lines.length - (cursorPos.toNat - q), ?_, ?_⟩
      · rw [List.mem_range'_1]
        omega
      · rw [candidatePos, hrev]
        simp only [Bool.false_eq_true, if_false]
        have harg : cursorPos + ((lines.length - (cursorPos.toNat - q) : Nat) : Int) =
            (q : Int) + (lines.length : Int) := by
          omega
        rw [harg, show Int.tmod ((q : Int) + (lines.length : Int))
            (lines.length : Int) =
            ((q : Int) + (lines.length : Int)) % (lines.length : Int) from
            Int.tmod_eq_emod (by omega) (by omega),
          Int.add_emod_self, Int.emod_eq_of_lt (by omega) (by omega)]

/-- The snapshot used by the C6 witness: the term "alpha" occurs only
before the anchor line 2, so the forward scan finds it after wrapping. -/
def linesW6 : List (List Char) := ["alpha".data, "beta".data, "gamma".data]

/-- Witness for the C6 theorem at a concrete snapshot, term and anchor. -/
theorem performSearch_spec_witness :
    ((0 : Int) ≤ 2 ∧ (2 : Int) < (linesW6.length : Int)) ∧
    (performSearch linesW6 "alpha".data 2 false =
        (searchCandidates linesW6.length 2 false).find?
          (fun p => containsSub "alpha".data (lineAt linesW6 p)) ∧
      (searchCandidates linesW6.length 2 false).length = linesW6.length - 1 ∧
      (2 : Int) ∉ searchCandidates linesW6.length 2 false ∧
      (false = false → ∀ q : Nat, q < linesW6.length → (q : Int) ≠ 2 →
        (q : Int) ∈ searchCandidates linesW6.length 2 false)) :=
  ⟨⟨by decide, by decide⟩,
    performSearch_spec linesW6 "alpha".data 2 false (by decide) (by decide)⟩

/-! ## Remote address parsing (claims C9, C10) -/

/--
Claim C9: the SSH-style address `git@github.com:owner/repo.git` and the
URL-style address `https://github.com/owner/repo` both parse to
`Host = "github.com", Repo = "owner/repo"`: the trailing `.git` suffix is
stripped and host and repository path are split and trimmed of surrounding
slashes.
-/
theorem parseRemoteUrl_examples :
    parseRemoteUrl "git@github.com:owner/repo.git".data =
      .ok { Host := "github.com".data, Repo := "owner/repo".data } ∧
    parseRemoteUrl "https://github.com/owner/repo".data =
      .ok { Host := "github.com".data, Repo := "owner/repo".data } := by
  constructor <;> decide

/--
Claim C10: `parseRemoteUrl` is not total on SSH-style input.  On
`git@github.com/owner/repo` — a `git@`-prefixed address with no colon —
the source indexes `hostAndRepoSlice[1]` past the end of the one-element
result of `SplitN` and panics instead of returning a result or an error;
and for every `git@`-prefixed input it returns normally precisely when the
remainder after stripping `git@` (and the `.git` suffix) contains a colon.
-/
theorem parseRemoteUrl_ssh_colon (raw : List Char)
    (hpre : "git@".data.isPrefixOf (stripGitSuffix raw) = true) :
    parseRemoteUrl "git@github.com/owner/repo".data = .panicked ∧
    (':' ∈ removeFirstStr "git@".data (stripGitSuffix raw) →
      ∃ ri, parseRemoteUrl raw = .ok ri) ∧
    (':' ∉ removeFirstStr "git@".data (stripGitSuffix raw) →
      parseRemoteUrl raw = .panicked) := by
  refine ⟨by decide, ?_, ?_⟩
  · intro hcol
    refine ⟨{ Host := goTrimSlashes ((removeFirstStr "git@".data (stripGitSuffix raw)).takeWhile (fun c => c ≠ ':')), Repo := goTrimSlashes (((removeFirstStr "git@".data (stripGitSuffix raw)).dropWhile (fun c => c ≠ ':')).tail) }, ?_⟩
    simp only [parseRemoteUrl]
    rw [if_pos hpre, splitN2Colon, if_pos hcol]
  · intro hcol
    simp only [parseRemoteUrl]
    rw [if_pos hpre, splitN2Colon, if_neg hcol]

/-- Witness for the C10 theorem: a colon-bearing SSH address parses, a
colon-free one panics. -/
theorem parseRemoteUrl_ssh_colon_witness :
    ("git@".data.isPrefixOf (stripGitSuffix "git@gitlab.com:grp/proj".data) = true ∧
      "git@".data.isPrefixOf (stripGitSuffix "git@github.com/owner/repo".data) = true) ∧
    (∃ ri, parseRemoteUrl "git@gitlab.com:grp/proj".data = .ok ri) ∧
    parseRemoteUrl "git@github.com/owner/repo".data = .panicked :=
  ⟨⟨by decide, by decide⟩,
    (parseRemoteUrl_ssh_colon "git@gitlab.com:grp/proj".data (by decide)).2.1
      (by decide),
    (parseRemoteUrl_ssh_colon "git@github.com/owner/repo".data (by decide)).2.2
      (by decide)⟩

end Bgb
